import Mathlib

/-!
# Verification of the `pdb` memory-layout primitives

A shallow embedding of the repository's two computational cores and proofs
about them:

* `FreeList` (src/alloc/free_list.rs): a first-fit free-range allocator with a
  most-recently-used cache, kept over a linked list of `Range`s.
* `LinkedList`/`Node`/`Cursor` (src/alloc/linked_list/): an unrolled
  doubly-linked list with stable value references (`Ref`/`Location`).

The FreeList operations are translated line by line from free_list.rs.  The
linked list beneath it is represented at the cursor/Ref interface the design
documents specify (an ordered sequence of values carrying stable reference
identities), because the node-level linked-list sources are a half-finished
mixture of two incompatible field layouts and several accessors used by
free_list.rs (`value_mut`, `len`, `Node::reference`) do not appear in the
sources at all.  The node-level list itself is embedded separately further
below, for the claims that are about it.
-/

namespace Pdb

/-- Checked subtraction.  Models Rust debug-build unsigned subtraction, which
panics on underflow; `none` models the panic. -/
def checkedSub (a b : Nat) : Option Nat :=
  if b ≤ a then some (a - b) else none

/-! ## FreeList (src/alloc/free_list.rs) -/

/-- Range of memory in a buffer (free_list.rs, `struct Range`). -/
structure Range where
  offset : Nat
  size : Nat
deriving Repr, DecidableEq

/-- `Range::allocate` (free_list.rs lines 17-22): carve `size` bytes from the
front of the range, returning the old offset.  The caller guarantees
`size <= self.size`, so the `Nat` subtraction agrees with the source's
`usize` subtraction wherever the function is actually invoked. -/
def Range.allocate (r : Range) (size : Nat) : Nat × Range :=
  (r.offset, { offset := r.offset + size, size := r.size - size })

/-- Result of an allocation request (free_list.rs, `enum AllocationResult`). -/
inductive AllocationResult where
  | Allocated (offset : Nat)
  | NotFound (maxSize : Nat)
deriving Repr, DecidableEq

/-- Result of `FreeList::free`.  The source returns
`Result<(), &'static str>`; the only error value is the overlap error. -/
inductive FreeResult where
  | ok
  | overlapError
deriving Repr, DecidableEq

/-- Modelled from the spec: the FreeList state.  The underlying
`LinkedList<Range, 8>` is represented at the cursor/Ref interface specified in
spec sections 4.2-4.3 (the ordered sequence of stored values, each carrying a
stable reference identity usable to re-enter the list), because the node-level
linked-list sources are an inconsistent half-refactor and the accessors
free_list.rs relies on (`CursorMut::value` via `Node::value_mut`, `Node::len`,
`Node::reference`) are missing from the sources.  `ranges` is the list
contents in list order, each value paired with its reference identity;
`last_used` holds the reference identity cached by the allocator
(`Option<NodeRef<Range, 8>>` in the source); `nextRef` is a freshness counter
for reference identities. -/
structure FreeList where
  ranges : List (Nat × Range)
  last_used : Option Nat
  nextRef : Nat
deriving Repr, DecidableEq

/-- Platform word size, `std::mem::size_of::<usize>()` in the source,
fixed here to 8 (the 64-bit targets the crate is built for). -/
def WORD : Nat := 8

/-- `FreeList::pad_size` (free_list.rs lines 62-65):
`*size += WORD - (*size % WORD)`. -/
def FreeList.pad_size (size : Nat) : Nat :=
  size + (WORD - size % WORD)

/-- `FreeList::new` (free_list.rs lines 46-59): a single free range spanning
the whole capacity, cached as `last_used`. -/
def FreeList.new (cap : Nat) : FreeList :=
  { ranges := [(0, { offset := 0, size := cap })]
    last_used := some 0
    nextRef := 1 }

/-- Resolve a stable reference identity to the value it refers to
(`Ref::cursor_mut` followed by `CursorMut::value` at the interface level). -/
def lookupRef : List (Nat × Range) → Nat → Option Range
  | [], _ => none
  | (id, r) :: rest, i => if id = i then some r else lookupRef rest i

/-- Replace the value a reference identity refers to (in-place mutation of a
cursor's current value in the source). -/
def updateRef : List (Nat × Range) → Nat → Range → List (Nat × Range)
  | [], _, _ => []
  | (id, r) :: rest, i, r' =>
    if id = i then (id, r') :: rest else (id, r) :: updateRef rest i r'

/-- Remove the value a reference identity refers to (`CursorMut::remove` of
the cursor obtained from that reference). -/
def removeRef : List (Nat × Range) → Nat → List (Nat × Range)
  | [], _ => []
  | (id, r) :: rest, i =>
    if id = i then rest else (id, r) :: removeRef rest i

/-- The scan loop of `FreeList::allocate` (free_list.rs lines 96-133): walk
the ranges from the cursor's position in list order, tracking the largest
size seen; carve from the first range that fits.  Returns the result, the
updated remainder of the list, and the updated `last_used` cache. -/
def allocScan (p : Nat) (lu : Option Nat) :
    List (Nat × Range) → Nat →
    AllocationResult × List (Nat × Range) × Option Nat
  | [], maxSize => (.NotFound maxSize, [], lu)
  | (id, r) :: rest, maxSize =>
    -- `if max_size < range.size { max_size = range.size; }`
    let maxSize' := if maxSize < r.size then r.size else maxSize
    if p < r.size then
      -- still some space left in the range: carve and cache this range
      (.Allocated r.offset, (id, (r.allocate p).2) :: rest, some id)
    else if r.size = p then
      -- range depleted: remove it; clear the cache only if it names it
      (.Allocated r.offset, rest, if lu = some id then none else lu)
    else
      let (res, rest', lu') := allocScan p lu rest maxSize'
      (res, (id, r) :: rest', lu')

/-- `FreeList::allocate` (free_list.rs lines 69-134).  The hot path re-enters
the list through the `last_used` reference; when that reference is dangling
the source's behavior is undefined (`c.value().unwrap()` on a removed range),
modelled here as a distinguished `NotFound 0` result — the reachable-state
invariant proved below shows this branch is never taken. -/
def FreeList.allocate (s : FreeList) (size : Nat) :
    AllocationResult × FreeList :=
  let p := FreeList.pad_size size
  match s.last_used with
  | some id =>
    match lookupRef s.ranges id with
    | some r =>
      if p < r.size then
        -- still some space left in the range
        (.Allocated r.offset,
          { s with ranges := updateRef s.ranges id (r.allocate p).2 })
      else if r.size = p then
        -- range depleted
        (.Allocated r.offset,
          { s with ranges := removeRef s.ranges id, last_used := none })
      else
        let (res, rg, lu) := allocScan p s.last_used s.ranges 0
        (res, { s with ranges := rg, last_used := lu })
    | none => (.NotFound 0, s)
  | none =>
    let (res, rg, lu) := allocScan p s.last_used s.ranges 0
    (res, { s with ranges := rg, last_used := lu })

/-- The scan loop of `FreeList::free` (free_list.rs lines 146-169) on a
non-empty list: insert the (already padded) new range before the first range
whose offset exceeds the freed offset; skip ranges that end at or before the
freed offset; `none` models the overlap error return. -/
def freeScan (off p nid : Nat) :
    List (Nat × Range) → Option (List (Nat × Range))
  | [] => some [(nid, { offset := off, size := p })]
  | (id, r) :: rest =>
    if off < r.offset then
      some ((nid, { offset := off, size := p }) :: (id, r) :: rest)
    else if r.offset + r.size ≤ off then
      ((id, r) :: ·) <$> freeScan off p nid rest
    else
      none

/-- `FreeList::free` (free_list.rs lines 137-170). -/
def FreeList.free (s : FreeList) (off size : Nat) : FreeResult × FreeList :=
  let p := FreeList.pad_size size
  match s.ranges with
  | [] =>
    -- no free regions, so add one and cache it
    (.ok,
      { ranges := [(s.nextRef, { offset := off, size := p })]
        last_used := some s.nextRef
        nextRef := s.nextRef + 1 })
  | l =>
    match freeScan off p s.nextRef l with
    | some rg => (.ok, { s with ranges := rg, nextRef := s.nextRef + 1 })
    | none => (.overlapError, s)

/-- The `last_used` cache names a range that is a member of the list.  This is
the precondition of the unsafe cursor construction at the start of
`FreeList::allocate`. -/
def FreeList.cacheValid (s : FreeList) : Bool :=
  match s.last_used with
  | some id => (lookupRef s.ranges id).isSome
  | none => true

/-- Claim-side restatement of `FreeList::allocate`, written from the spec's
words: check the `last_used` cached range first (carve in place on strict
excess; remove it and clear the cache on exact fit); otherwise take the
first range in list order whose size is at least the padded request
(expressed with `takeWhile`/`dropWhile` rather than the source's loop), carve
from it the same way, make it the new `last_used` on a partial carve, and if
no range fits report `NotFound` with the maximum range size seen. -/
def FreeList.allocateSpec (s : FreeList) (size : Nat) :
    AllocationResult × FreeList :=
  let p := FreeList.pad_size size
  let fallback : AllocationResult × FreeList :=
    match s.ranges.dropWhile (fun e => decide (e.2.size < p)) with
    | [] =>
      (.NotFound (s.ranges.foldr (fun e acc => max e.2.size acc) 0), s)
    | f :: l2 =>
      let pre := s.ranges.takeWhile (fun e => decide (e.2.size < p))
      if p < f.2.size then
        (.Allocated f.2.offset,
          { s with
              ranges :=
                pre ++ (f.1, { offset := f.2.offset + p,
                               size := f.2.size - p }) :: l2
              last_used := some f.1 })
      else
        (.Allocated f.2.offset, { s with ranges := pre ++ l2 })
  match s.last_used with
  | some id =>
    match lookupRef s.ranges id with
    | some r =>
      if p < r.size then
        (.Allocated r.offset,
          { s with
              ranges := updateRef s.ranges id
                { offset := r.offset + p, size := r.size - p } })
      else if r.size = p then
        (.Allocated r.offset,
          { s with ranges := removeRef s.ranges id, last_used := none })
      else fallback
    | none => fallback
  | none => fallback

end Pdb

/-! ### Helper lemmas about the allocation scan -/

namespace Pdb

theorem dropWhile_head_false {q : (Nat × Range) → Bool} :
    ∀ {l l2 : List (Nat × Range)} {f : Nat × Range},
      List.dropWhile q l = f :: l2 → q f = false := by
  intro l
  induction l with
  | nil => intro l2 f h; simp [List.dropWhile] at h
  | cons e rest ih =>
    intro l2 f h
    by_cases hq : q e
    · rw [List.dropWhile_cons_of_pos hq] at h
      exact ih h
    · rw [List.dropWhile_cons_of_neg hq] at h
      cases h
      exact Bool.of_not_eq_true hq

theorem dropWhile_cons_mem {q : (Nat × Range) → Bool} :
    ∀ {l l2 : List (Nat × Range)} {f : Nat × Range},
      List.dropWhile q l = f :: l2 → f ∈ l := by
  intro l
  induction l with
  | nil => intro l2 f h; simp [List.dropWhile] at h
  | cons e rest ih =>
    intro l2 f h
    by_cases hq : q e
    · rw [List.dropWhile_cons_of_pos hq] at h
      exact List.mem_cons_of_mem _ (ih h)
    · rw [List.dropWhile_cons_of_neg hq] at h
      cases h
      exact List.mem_cons_self _ _

theorem lookupRef_mem_nodup :
    ∀ {l : List (Nat × Range)} {id : Nat} {r : Range},
      (l.map Prod.fst).Nodup → (id, r) ∈ l → lookupRef l id = some r := by
  intro l
  induction l with
  | nil => intro id r _ h; simp at h
  | cons e rest ih =>
    intro id r hnd hmem
    rw [List.map_cons, List.nodup_cons] at hnd
    rcases List.mem_cons.mp hmem with heq | hmem'
    · rw [← heq]
      simp [lookupRef]
    · have hne : e.1 ≠ id := by
        intro hcontra
        exact hnd.1 (hcontra ▸ List.mem_map_of_mem Prod.fst hmem')
      have : lookupRef (e :: rest) id =
          if e.1 = id then some e.2 else lookupRef rest id := rfl
      rw [this, if_neg hne]
      exact ih hnd.2 hmem'

/-- Characterization of the `allocate` scan loop: it either exhausts the list
(no range fits) and reports the running maximum folded over all sizes, or it
carves from the first range at least as large as the request. -/
theorem allocScan_eq (p : Nat) (lu : Option Nat) :
    ∀ (l : List (Nat × Range)) (m : Nat),
      allocScan p lu l m =
        match l.dropWhile (fun e => decide (e.2.size < p)) with
        | [] =>
          (.NotFound (l.foldl (fun acc e => max acc e.2.size) m), l, lu)
        | f :: l2 =>
          if p < f.2.size then
            (.Allocated f.2.offset,
              l.takeWhile (fun e => decide (e.2.size < p)) ++
                (f.1, { offset := f.2.offset + p,
                        size := f.2.size - p }) :: l2,
              some f.1)
          else
            (.Allocated f.2.offset,
              l.takeWhile (fun e => decide (e.2.size < p)) ++ l2,
              if lu = some f.1 then none else lu) := by
  intro l
  induction l with
  | nil => intro m; rfl
  | cons e rest ih =>
    intro m
    by_cases h1 : p < e.2.size
    · have hc : ¬ (e.2.size < p) := by omega
      simp only [allocScan, if_pos h1]
      simp [List.dropWhile_cons, List.takeWhile_cons, hc, h1, Range.allocate]
    · by_cases h2 : e.2.size = p
      · have hc : ¬ (e.2.size < p) := by omega
        simp only [allocScan, if_neg h1, if_pos h2]
        simp [List.dropWhile_cons, List.takeWhile_cons, hc, h1]
      · have hc : e.2.size < p := by omega
        simp only [allocScan, if_neg h1, if_neg h2]
        rw [ih]
        have hm : (if m < e.2.size then e.2.size else m) = max m e.2.size := by
          split <;> omega
        simp only [List.dropWhile_cons, List.takeWhile_cons, hc, decide_True,
          if_true, List.foldl_cons, hm]
        cases hdw : List.dropWhile (fun e => decide (e.2.size < p)) rest with
        | nil => simp
        | cons f l2 =>
          by_cases h4 : p < f.2.size
          · simp [h4]
          · simp [h4]

/-- `allocScan_eq`, specialized to the case where no range fits. -/
theorem allocScan_noFit (p : Nat) (lu : Option Nat)
    (l : List (Nat × Range)) (m : Nat)
    (h : l.dropWhile (fun e => decide (e.2.size < p)) = []) :
    allocScan p lu l m =
      (.NotFound (l.foldl (fun acc e => max acc e.2.size) m), l, lu) := by
  rw [allocScan_eq, h]

/-- `allocScan_eq`, specialized to the case where some range fits. -/
theorem allocScan_fit (p : Nat) (lu : Option Nat)
    (l : List (Nat × Range)) (m : Nat) (f : Nat × Range)
    (l2 : List (Nat × Range))
    (h : l.dropWhile (fun e => decide (e.2.size < p)) = f :: l2) :
    allocScan p lu l m =
      if p < f.2.size then
        (.Allocated f.2.offset,
          l.takeWhile (fun e => decide (e.2.size < p)) ++
            (f.1, { offset := f.2.offset + p, size := f.2.size - p }) :: l2,
          some f.1)
      else
        (.Allocated f.2.offset,
          l.takeWhile (fun e => decide (e.2.size < p)) ++ l2,
          if lu = some f.1 then none else lu) := by
  rw [allocScan_eq, h]

/-- Folding the running maximum from an accumulator equals taking the maximum
of the accumulator and the fold from zero. -/
theorem foldl_max_sizes :
    ∀ (l : List (Nat × Range)) (m : Nat),
      l.foldl (fun acc e => max acc e.2.size) m =
        max m (l.foldr (fun e acc => max e.2.size acc) 0) := by
  intro l
  induction l with
  | nil => intro m; simp
  | cons e rest ih =>
    intro m
    rw [List.foldl_cons, List.foldr_cons, ih]
    rw [Nat.max_assoc]

end Pdb

/-! ## Range overlap and the ordered-insert form of the interface-level free -/

namespace Pdb

/-- Two ranges overlap as byte spans: `[a.offset, a.offset + a.size)`
intersects `[b.offset, b.offset + b.size)`. -/
def Range.overlaps (a b : Range) : Bool :=
  decide (a.offset < b.offset + b.size) && decide (b.offset < a.offset + a.size)

/-- The free-range list is in ascending offset order with non-overlapping
spans: every range ends at or before the next one starts.  This is the shape
`free` maintains and the claims presuppose. -/
def ordered : List (Nat × Range) → Bool
  | [] => true
  | [_] => true
  | a :: b :: rest =>
    decide (a.2.offset + a.2.size ≤ b.2.offset) && ordered (b :: rest)

theorem ordered_tail {a : Nat × Range} {l : List (Nat × Range)} :
    ordered (a :: l) = true → ordered l = true := by
  cases l with
  | nil => intro _; rfl
  | cons b rest =>
    intro h
    have : (decide (a.2.offset + a.2.size ≤ b.2.offset) &&
        ordered (b :: rest)) = true := h
    exact (Bool.and_eq_true_iff.mp this).2

theorem ordered_head_le {a : Nat × Range} :
    ∀ {l : List (Nat × Range)}, ordered (a :: l) = true →
      ∀ e ∈ l, a.2.offset + a.2.size ≤ e.2.offset := by
  intro l
  induction l generalizing a with
  | nil => intro _ e he; simp at he
  | cons b rest ih =>
    intro h e he
    have hab : a.2.offset + a.2.size ≤ b.2.offset :=
      of_decide_eq_true (Bool.and_eq_true_iff.mp h).1
    rcases List.mem_cons.mp he with heq | he'
    · rw [heq]; exact hab
    · have hb := ih (Bool.and_eq_true_iff.mp h).2 e he'
      have : b.2.offset ≤ b.2.offset + b.2.size := Nat.le_add_right _ _
      omega

/-- Claim-side restatement of `FreeList::free` on an ordered state, written
from the (amended) claim's words: report the overlap error exactly when the
freed start offset lies inside some existing range's bounds; otherwise insert
the padded range immediately before the first range whose offset exceeds the
freed offset (at the tail when there is none); on an empty list insert the
lone range and cache it as `last_used`. -/
def FreeList.freeSpec (s : FreeList) (off size : Nat) :
    FreeResult × FreeList :=
  let p := FreeList.pad_size size
  match s.ranges with
  | [] =>
    (.ok,
      { ranges := [(s.nextRef, { offset := off, size := p })]
        last_used := some s.nextRef
        nextRef := s.nextRef + 1 })
  | _ =>
    if s.ranges.any (fun e =>
        decide (e.2.offset ≤ off) && decide (off < e.2.offset + e.2.size)) then
      (.overlapError, s)
    else
      (.ok,
        { s with
            ranges :=
              s.ranges.takeWhile (fun e => decide (e.2.offset ≤ off)) ++
                (s.nextRef, { offset := off, size := p }) ::
                  s.ranges.dropWhile (fun e => decide (e.2.offset ≤ off))
            nextRef := s.nextRef + 1 })

/-- Characterization of the `free` scan loop on ordered lists. -/
theorem freeScan_eq (off p nid : Nat) :
    ∀ l : List (Nat × Range), ordered l = true →
      freeScan off p nid l =
        (if l.any (fun e =>
            decide (e.2.offset ≤ off) &&
              decide (off < e.2.offset + e.2.size)) then
          none
        else
          some (l.takeWhile (fun e => decide (e.2.offset ≤ off)) ++
            (nid, { offset := off, size := p }) ::
              l.dropWhile (fun e => decide (e.2.offset ≤ off)))) := by
  intro l
  induction l with
  | nil => intro _; rfl
  | cons e rest ih =>
    intro hord
    by_cases h1 : off < e.2.offset
    · -- insert before this range; nothing later can start at or before `off`
      have hno : ∀ f ∈ rest, ¬ (f.2.offset ≤ off) := by
        intro f hf
        have := ordered_head_le hord f hf
        omega
      have hany : ((e :: rest).any (fun e =>
          decide (e.2.offset ≤ off) &&
            decide (off < e.2.offset + e.2.size))) = false := by
        simp only [List.any_cons, List.any_eq_true, Bool.or_eq_false_iff]
        constructor
        · simp; omega
        · simp only [List.any_eq_false]
          intro f hf
          simp [hno f hf]
      rw [hany]
      simp only [freeScan, if_pos h1, Bool.false_eq_true, if_false]
      have hpe : ¬ (e.2.offset ≤ off) := by omega
      rw [List.takeWhile_cons_of_neg (by simp [hpe]),
        List.dropWhile_cons_of_neg (by simp [hpe])]
      simp
    · by_cases h2 : e.2.offset + e.2.size ≤ off
      · have hnotbad : ¬ (off < e.2.offset + e.2.size) := by omega
        have hpe : e.2.offset ≤ off := by omega
        simp only [freeScan, if_neg h1, if_pos h2]
        rw [ih (ordered_tail hord)]
        rw [List.takeWhile_cons_of_pos (by simp [hpe]),
          List.dropWhile_cons_of_pos (by simp [hpe])]
        simp only [List.any_cons]
        have hc : (decide (e.2.offset ≤ off) &&
            decide (off < e.2.offset + e.2.size)) = false := by
          simp [hnotbad]
        simp only [hc, Bool.false_or]
        cases hany : rest.any (fun e =>
            decide (e.2.offset ≤ off) &&
              decide (off < e.2.offset + e.2.size)) with
        | true => simp
        | false => simp
      · -- overlap: the freed start lies inside this range
        have hbad : e.2.offset ≤ off ∧ off < e.2.offset + e.2.size := by omega
        simp only [freeScan, if_neg h1, if_neg h2]
        have : ((e :: rest).any (fun e =>
            decide (e.2.offset ≤ off) &&
              decide (off < e.2.offset + e.2.size))) = true := by
          simp only [List.any_cons, Bool.or_eq_true]
          left
          simp [hbad.1, hbad.2]
        rw [this]
        simp

end Pdb

/-! ## Claim C5: size padding -/

/-- C5 counterexample: the claim says a size already a multiple of the word
size is used unchanged, but `pad_size` adds a full word to it: `pad_size 8`
is 16, not 8. -/
theorem C5_pad_counterexample :
    Pdb.FreeList.pad_size 8 = 16 ∧ Pdb.FreeList.pad_size 8 ≠ 8 := by
  decide

/-- C5 (amended): both `allocate` and `free` replace the size by
`size + (WORD - size % WORD)`, the smallest multiple of the word size that is
strictly greater than the size (so an already-aligned size grows by a full
word), and both operations apply the identical rounding: their results depend
on the requested size only through `pad_size`. -/
theorem C5_pad_size_rounds_up_strictly :
    (∀ sz : Nat, Pdb.FreeList.pad_size sz % Pdb.WORD = 0 ∧
      sz < Pdb.FreeList.pad_size sz ∧
      (∀ m : Nat, m % Pdb.WORD = 0 → sz < m → Pdb.FreeList.pad_size sz ≤ m)) ∧
    (∀ (s : Pdb.FreeList) (off sz sz' : Nat),
      Pdb.FreeList.pad_size sz = Pdb.FreeList.pad_size sz' →
      s.allocate sz = s.allocate sz' ∧ s.free off sz = s.free off sz') := by
  constructor
  · intro sz
    refine ⟨?_, ?_, ?_⟩
    · show (sz + (Pdb.WORD - sz % Pdb.WORD)) % Pdb.WORD = 0
      show (sz + (8 - sz % 8)) % 8 = 0
      omega
    · show sz < sz + (Pdb.WORD - sz % Pdb.WORD)
      show sz < sz + (8 - sz % 8)
      omega
    · intro m hm hlt'
      show sz + (Pdb.WORD - sz % Pdb.WORD) ≤ m
      revert hm
      show m % 8 = 0 → sz + (8 - sz % 8) ≤ m
      omega
  · intro s off sz sz' h
    constructor
    · show Pdb.FreeList.allocate s sz = Pdb.FreeList.allocate s sz'
      unfold Pdb.FreeList.allocate
      rw [h]
    · show Pdb.FreeList.free s off sz = Pdb.FreeList.free s off sz'
      unfold Pdb.FreeList.free
      rw [h]

/-! ## Claim C10: cache validity over instrumented call traces -/

namespace Pdb

/-- A call to the FreeList surface. -/
inductive Op where
  | alloc (size : Nat)
  | free (offset size : Nat)
deriving Repr, DecidableEq

/-- Raw execution of a call sequence against a fresh FreeList, discarding
results. -/
def runCalls (cap : Nat) (ops : List Op) : FreeList :=
  ops.foldl
    (fun s op =>
      match op with
      | .alloc size => (s.allocate size).2
      | .free off size => (s.free off size).2)
    (FreeList.new cap)

/-- Remove one occurrence of a live allocation record (the harness's
bookkeeping counterpart of the caller forgetting a freed pair). -/
def removeLive : List (Nat × Nat) → (Nat × Nat) → List (Nat × Nat)
  | [], _ => []
  | x :: rest, a => if x = a then rest else x :: removeLive rest a

theorem removeLive_perm :
    ∀ {l : List (Nat × Nat)} {a : Nat × Nat}, a ∈ l →
      l.Perm (a :: removeLive l a) := by
  intro l
  induction l with
  | nil => intro a hmem; cases hmem
  | cons x rest ih =>
    intro a hmem
    by_cases hx : x = a
    · subst hx
      rw [show removeLive (x :: rest) x = rest from by
        simp [removeLive]]
    · have hmem' : a ∈ rest := by
        rcases List.mem_cons.mp hmem with h1 | h1
        · exact absurd h1.symm hx
        · exact h1
      rw [show removeLive (x :: rest) a = x :: removeLive rest a from by
        simp [removeLive, hx]]
      exact ((ih hmem').cons x).trans (List.Perm.swap a x (removeLive rest a))

theorem mem_of_mem_removeLive :
    ∀ {l : List (Nat × Nat)} {a x : Nat × Nat},
      x ∈ removeLive l a → x ∈ l := by
  intro l
  induction l with
  | nil => intro a x hmem; cases hmem
  | cons y rest ih =>
    intro a x hmem
    by_cases hy : y = a
    · rw [show removeLive (y :: rest) a = rest from by
        simp [removeLive, hy]] at hmem
      exact List.mem_cons_of_mem _ hmem
    · rw [show removeLive (y :: rest) a = y :: removeLive rest a from by
        simp [removeLive, hy]] at hmem
      rcases List.mem_cons.mp hmem with h1 | h1
      · exact h1 ▸ List.mem_cons_self _ _
      · exact List.mem_cons_of_mem _ (ih h1)

/-- Instrumented execution state for the allocation-disjointness claim.
`live` records the (offset, requested size) pairs returned by `allocate` and
not yet freed; `ok` records whether the trace so far satisfies the claim's
side conditions, namely that `free` is applied only to currently live pairs
and never returns an error.  A `free` of a pair that is not live falsifies
`ok` without performing the call: such traces are outside the claim's
hypothesis and are excluded by requiring `ok = true`. -/
structure Trace where
  fl : FreeList
  live : List (Nat × Nat)
  ok : Bool

def initTrace (cap : Nat) : Trace :=
  { fl := FreeList.new cap, live := [], ok := true }

def stepTrace (t : Trace) : Op → Trace
  | .alloc size =>
    match t.fl.allocate size with
    | (.Allocated off, fl') =>
      { t with fl := fl', live := (off, size) :: t.live }
    | (.NotFound _, fl') => { t with fl := fl' }
  | .free off size =>
    if (off, size) ∈ t.live then
      match t.fl.free off size with
      | (.ok, fl') =>
        { t with fl := fl', live := removeLive t.live (off, size) }
      | (.overlapError, fl') => { t with fl := fl', ok := false }
    else
      { t with ok := false }

def runTrace (cap : Nat) (ops : List Op) : Trace :=
  ops.foldl stepTrace (initTrace cap)

/-- Decomposition of a successful reference lookup: the list splits at the
first entry carrying the identity, and `updateRef`/`removeRef` act exactly
there. -/
theorem lookupRef_decomp :
    ∀ {l : List (Nat × Range)} {id : Nat} {r : Range},
      lookupRef l id = some r →
      ∃ pre suf, l = pre ++ (id, r) :: suf ∧
        (∀ r', updateRef l id r' = pre ++ (id, r') :: suf) ∧
        removeRef l id = pre ++ suf := by
  intro l
  induction l with
  | nil => intro id r h; simp [lookupRef] at h
  | cons e rest ih =>
    intro id r h
    obtain ⟨a, b⟩ := e
    by_cases he : a = id
    · have hb : b = r := by
        have : lookupRef ((a, b) :: rest) id = some b := by
          simp [lookupRef, he]
        rw [this] at h
        exact Option.some.inj h
      refine ⟨[], rest, ?_, ?_, ?_⟩
      · simp [he, hb]
      · intro r'
        simp [updateRef, he]
      · simp [removeRef, he]
    · have hh : lookupRef ((a, b) :: rest) id = lookupRef rest id := by
        simp [lookupRef, he]
      rw [hh] at h
      obtain ⟨pre, suf, hsplit, hupd, hrem⟩ := ih h
      refine ⟨(a, b) :: pre, suf, ?_, ?_, ?_⟩
      · simp [hsplit]
      · intro r'
        simp [updateRef, he, hupd r']
      · simp [removeRef, he, hrem]

/-- What a call to `allocate` does to the state: either nothing fits (the
state is unchanged and the result is `NotFound`), or the list splits around
a range at least as large as the padded request, which is carved in place
(partial fit) or removed (exact fit). -/
theorem allocate_effect (s : FreeList) (size : Nat) :
    ((s.allocate size).2 = s ∧ ∃ m, (s.allocate size).1 = .NotFound m) ∨
    ∃ pre id r suf,
      s.ranges = pre ++ (id, r) :: suf ∧
      FreeList.pad_size size ≤ r.size ∧
      (s.allocate size).1 = .Allocated r.offset ∧
      (s.allocate size).2.nextRef = s.nextRef ∧
      ((FreeList.pad_size size < r.size ∧
          (s.allocate size).2.ranges =
            pre ++ (id, { offset := r.offset + FreeList.pad_size size,
                          size := r.size - FreeList.pad_size size }) :: suf ∧
          ((s.allocate size).2.last_used = s.last_used ∨
            (s.allocate size).2.last_used = some id)) ∨
        (r.size = FreeList.pad_size size ∧
          (s.allocate size).2.ranges = pre ++ suf ∧
          ((s.allocate size).2.last_used = none ∨
            ((s.allocate size).2.last_used = s.last_used ∧
              s.last_used ≠ some id)))) := by
  obtain ⟨rgs, lu0, nr0⟩ := s
  unfold Pdb.FreeList.allocate
  cases lu0 with
  | none =>
    dsimp only []
    cases hdw : rgs.dropWhile
        (fun e => decide (e.2.size < Pdb.FreeList.pad_size size)) with
    | nil =>
      rw [Pdb.allocScan_noFit _ _ _ _ hdw]
      left
      constructor
      · rfl
      · exact ⟨_, rfl⟩
    | cons f l2 =>
      rw [Pdb.allocScan_fit _ _ _ _ _ _ hdw]
      right
      have hsplit : rgs =
          rgs.takeWhile (fun e => decide (e.2.size < Pdb.FreeList.pad_size size))
            ++ f :: l2 := by
        conv_lhs => rw [← List.takeWhile_append_dropWhile
          (p := fun e : Nat × Range =>
            decide (e.2.size < Pdb.FreeList.pad_size size)) (l := rgs)]
        rw [hdw]
      have hpad : Pdb.FreeList.pad_size size ≤ f.2.size := by
        have := Pdb.dropWhile_head_false hdw
        simp at this
        omega
      refine ⟨_, f.1, f.2, l2, hsplit, hpad, ?_⟩
      by_cases hfit : Pdb.FreeList.pad_size size < f.2.size
      · rw [if_pos hfit]
        refine ⟨rfl, rfl, Or.inl ⟨hfit, rfl, Or.inr rfl⟩⟩
      · rw [if_neg hfit]
        exact ⟨rfl, rfl, Or.inr ⟨by omega, rfl, Or.inl rfl⟩⟩
  | some id =>
    dsimp only []
    cases hlk : Pdb.lookupRef rgs id with
    | none =>
      left
      constructor
      · rfl
      · exact ⟨_, rfl⟩
    | some r =>
      dsimp only []
      by_cases h1 : Pdb.FreeList.pad_size size < r.size
      · right
        obtain ⟨pre, suf, hsplit, hupd, _⟩ := Pdb.lookupRef_decomp hlk
        refine ⟨pre, id, r, suf, hsplit, by omega, ?_⟩
        rw [if_pos h1]
        exact ⟨rfl, rfl, Or.inl ⟨h1, hupd _, Or.inl rfl⟩⟩
      · by_cases h2 : r.size = Pdb.FreeList.pad_size size
        · right
          obtain ⟨pre, suf, hsplit, _, hrem⟩ := Pdb.lookupRef_decomp hlk
          refine ⟨pre, id, r, suf, hsplit, by omega, ?_⟩
          rw [if_neg h1, if_pos h2]
          exact ⟨rfl, rfl, Or.inr ⟨h2, hrem, Or.inl rfl⟩⟩
        · rw [if_neg h1, if_neg h2]
          cases hdw : rgs.dropWhile
              (fun e => decide (e.2.size < Pdb.FreeList.pad_size size)) with
          | nil =>
            rw [Pdb.allocScan_noFit _ _ _ _ hdw]
            left
            constructor
            · rfl
            · exact ⟨_, rfl⟩
          | cons f l2 =>
            rw [Pdb.allocScan_fit _ _ _ _ _ _ hdw]
            right
            have hsplit : rgs =
                rgs.takeWhile
                  (fun e => decide (e.2.size < Pdb.FreeList.pad_size size))
                  ++ f :: l2 := by
              conv_lhs => rw [← List.takeWhile_append_dropWhile
                (p := fun e : Nat × Range =>
                  decide (e.2.size < Pdb.FreeList.pad_size size)) (l := rgs)]
              rw [hdw]
            have hpad : Pdb.FreeList.pad_size size ≤ f.2.size := by
              have := Pdb.dropWhile_head_false hdw
              simp at this
              omega
            refine ⟨_, f.1, f.2, l2, hsplit, hpad, ?_⟩
            by_cases hfit : Pdb.FreeList.pad_size size < f.2.size
            · rw [if_pos hfit]
              refine ⟨rfl, rfl, Or.inl ⟨hfit, rfl, Or.inr rfl⟩⟩
            · rw [if_neg hfit]
              by_cases hsame : (some id : Option Nat) = some f.1
              · rw [if_pos hsame]
                exact ⟨rfl, rfl, Or.inr ⟨by omega, rfl, Or.inl rfl⟩⟩
              · rw [if_neg hsame]
                exact ⟨rfl, rfl, Or.inr ⟨by omega, rfl, Or.inr ⟨rfl, hsame⟩⟩⟩

/-- Decomposition of a successful `free` scan: the new padded range is
inserted at a single position, the rest of the list is unchanged. -/
theorem freeScan_decomp (off p nid : Nat) :
    ∀ {l l' : List (Nat × Range)},
      freeScan off p nid l = some l' →
      ∃ pre suf, l = pre ++ suf ∧
        l' = pre ++ (nid, { offset := off, size := p }) :: suf := by
  intro l
  induction l with
  | nil =>
    intro l' h
    refine ⟨[], [], rfl, ?_⟩
    have : (some [(nid, ({ offset := off, size := p } : Range))] :
        Option (List (Nat × Range))) = some l' := h
    exact (Option.some.inj this).symm
  | cons e rest ih =>
    intro l' h
    obtain ⟨a, b⟩ := e
    by_cases h1 : off < b.offset
    · rw [show freeScan off p nid ((a, b) :: rest) =
          some ((nid, { offset := off, size := p }) :: (a, b) :: rest) from by
        simp [freeScan, h1]] at h
      exact ⟨[], (a, b) :: rest, rfl, (Option.some.inj h).symm⟩
    · by_cases h2 : b.offset + b.size ≤ off
      · rw [show freeScan off p nid ((a, b) :: rest) =
            ((a, b) :: ·) <$> freeScan off p nid rest from by
          simp [freeScan, h1, h2]] at h
        cases hfs : freeScan off p nid rest with
        | none => rw [hfs] at h; cases h
        | some l'' =>
          rw [hfs] at h
          have hl' : l' = (a, b) :: l'' := (Option.some.inj h).symm
          obtain ⟨pre, suf, hsplit, hins⟩ := ih hfs
          exact ⟨(a, b) :: pre, suf, by simp [hsplit], by simp [hl', hins]⟩
      · rw [show freeScan off p nid ((a, b) :: rest) = none from by
          simp [freeScan, h1, h2]] at h
        cases h

/-- What a call to `free` does to the state: either it fails (overlap error,
state unchanged) or it succeeds by inserting the freed padded range at one
position, bumping the reference counter, and leaving `last_used` unchanged
except on the empty list where the new range becomes the cache. -/
theorem free_effect (s : FreeList) (off size : Nat) :
    (s.free off size).2 = s ∨
    ((s.free off size).1 = .ok ∧
      ∃ pre suf,
        s.ranges = pre ++ suf ∧
        (s.free off size).2.ranges =
          pre ++ (s.nextRef, { offset := off,
                               size := FreeList.pad_size size }) :: suf ∧
        (s.free off size).2.nextRef = s.nextRef + 1 ∧
        ((s.free off size).2.last_used = s.last_used ∨
          (s.free off size).2.last_used = some s.nextRef)) := by
  obtain ⟨rgs, lu0, nr0⟩ := s
  unfold Pdb.FreeList.free
  cases rgs with
  | nil =>
    right
    exact ⟨rfl, [], [], rfl, rfl, rfl, Or.inr rfl⟩
  | cons e rest =>
    dsimp only []
    cases hfs : freeScan off (Pdb.FreeList.pad_size size) nr0 (e :: rest) with
    | none => left; rfl
    | some rg =>
      right
      obtain ⟨pre, suf, hsplit, hins⟩ := Pdb.freeScan_decomp _ _ _ hfs
      exact ⟨rfl, pre, suf, hsplit, hins, rfl, Or.inl rfl⟩

/-- The `last_used` cache names a current member of the range list. -/
def cacheMember (s : FreeList) : Prop :=
  ∀ id, s.last_used = some id → ∃ r, (id, r) ∈ s.ranges

theorem allocate_cacheMember {s : FreeList} (size : Nat)
    (h : cacheMember s) : cacheMember (s.allocate size).2 := by
  rcases Pdb.allocate_effect s size with ⟨heq, _⟩ |
    ⟨pre, id, r, suf, hsplit, hpad, hres, hnr, hcase⟩
  · rw [heq]; exact h
  · intro j hj
    rcases hcase with ⟨hlt, hrg, hlu⟩ | ⟨hexact, hrg, hlu⟩
    · rcases hlu with hlu | hlu
      · rw [hlu] at hj
        obtain ⟨rr, hmem⟩ := h j hj
        rw [hsplit] at hmem
        rw [hrg]
        rcases List.mem_append.mp hmem with hm | hm
        · exact ⟨rr, List.mem_append_left _ hm⟩
        · rcases List.mem_cons.mp hm with hm | hm
          · injection hm with hm1 _
            subst hm1
            exact ⟨_, List.mem_append_right _ (List.mem_cons_self _ _)⟩
          · exact ⟨rr, List.mem_append_right _ (List.mem_cons_of_mem _ hm)⟩
      · rw [hlu] at hj
        have hji : j = id := (Option.some.inj hj).symm
        subst hji
        rw [hrg]
        exact ⟨_, List.mem_append_right _ (List.mem_cons_self _ _)⟩
    · rcases hlu with hlu | ⟨hlu, hne⟩
      · rw [hlu] at hj; cases hj
      · rw [hlu] at hj
        obtain ⟨rr, hmem⟩ := h j hj
        rw [hsplit] at hmem
        rw [hrg]
        rcases List.mem_append.mp hmem with hm | hm
        · exact ⟨rr, List.mem_append_left _ hm⟩
        · rcases List.mem_cons.mp hm with hm | hm
          · exfalso
            injection hm with hm1 _
            subst hm1
            exact hne hj
          · exact ⟨rr, List.mem_append_right _ hm⟩

theorem free_cacheMember {s : FreeList} (off size : Nat)
    (h : cacheMember s) : cacheMember (s.free off size).2 := by
  rcases Pdb.free_effect s off size with heq |
    ⟨_, pre, suf, hsplit, hins, hnr, hlu⟩
  · rw [heq]; exact h
  · intro j hj
    rcases hlu with hlu | hlu
    · rw [hlu] at hj
      obtain ⟨rr, hmem⟩ := h j hj
      rw [hsplit] at hmem
      rw [hins]
      rcases List.mem_append.mp hmem with hm | hm
      · exact ⟨rr, List.mem_append_left _ hm⟩
      · exact ⟨rr, List.mem_append_right _ (List.mem_cons_of_mem _ hm)⟩
    · rw [hlu] at hj
      have hji : j = s.nextRef := (Option.some.inj hj).symm
      subst hji
      rw [hins]
      exact ⟨_, List.mem_append_right _ (List.mem_cons_self _ _)⟩

/-- Mutual disjointness invariant carried by an instrumented trace: free
ranges are pairwise disjoint, live allocations (at their padded extents) are
pairwise disjoint, and every live allocation is disjoint from every free
range. -/
structure TraceInv (t : Trace) : Prop where
  liveDisj : t.live.Pairwise (fun a b =>
    a.1 + FreeList.pad_size a.2 ≤ b.1 ∨ b.1 + FreeList.pad_size b.2 ≤ a.1)
  listDisj : t.fl.ranges.Pairwise (fun a b =>
    a.2.offset + a.2.size ≤ b.2.offset ∨ b.2.offset + b.2.size ≤ a.2.offset)
  liveList : ∀ a ∈ t.live, ∀ e ∈ t.fl.ranges,
    a.1 + FreeList.pad_size a.2 ≤ e.2.offset ∨
      e.2.offset + e.2.size ≤ a.1

theorem rangeDisj_symm :
    ∀ {x y : Nat × Range},
      (x.2.offset + x.2.size ≤ y.2.offset ∨
        y.2.offset + y.2.size ≤ x.2.offset) →
      (y.2.offset + y.2.size ≤ x.2.offset ∨
        x.2.offset + x.2.size ≤ y.2.offset) := by
  intro x y h
  exact h.symm

theorem stepTrace_inv {t : Trace} (h : TraceInv t) (op : Op) :
    TraceInv (stepTrace t op) := by
  cases op with
  | alloc size =>
    rcases Pdb.allocate_effect t.fl size with ⟨heq, m, hm⟩ |
      ⟨pre, id, r, suf, hsplit, hpad, hres, hnr, hcase⟩
    · -- no fit: the state is unchanged
      simp only [stepTrace]
      rcases ha : t.fl.allocate size with ⟨res, fl'⟩
      rw [ha] at heq hm
      simp only [] at heq hm
      subst hm
      subst heq
      exact ⟨h.liveDisj, h.listDisj, h.liveList⟩
    · have hmemr : (id, r) ∈ t.fl.ranges := by
        rw [hsplit]; exact List.mem_append_right _ (List.mem_cons_self _ _)
      simp only [stepTrace]
      rcases ha : t.fl.allocate size with ⟨res, fl'⟩
      rw [ha] at hres hnr
      simp only [] at hres hnr
      subst hres
      -- the allocated extent is [r.offset, r.offset + pad)
      have hmid := (List.pairwise_middle (fun {x y} => Pdb.rangeDisj_symm)).mp
        (hsplit ▸ h.listDisj)
      have hall : ∀ e ∈ pre ++ suf,
          r.offset + r.size ≤ e.2.offset ∨
            e.2.offset + e.2.size ≤ r.offset := by
        intro e he
        exact (List.pairwise_cons.mp hmid).1 e he
      have hrest : (pre ++ suf).Pairwise (fun a b =>
          a.2.offset + a.2.size ≤ b.2.offset ∨
            b.2.offset + b.2.size ≤ a.2.offset) :=
        (List.pairwise_cons.mp hmid).2
      have hlivenew : ∀ a ∈ t.live,
          r.offset + FreeList.pad_size size ≤ a.1 ∨
            a.1 + FreeList.pad_size a.2 ≤ r.offset := by
        intro a ha'
        have := h.liveList a ha' (id, r) hmemr
        simp only [] at this
        omega
      rcases hcase with ⟨hlt, hrg, _⟩ | ⟨hexact, hrg, _⟩
      · -- partial carve
        rw [ha] at hrg
        simp only [] at hrg
        refine ⟨?_, ?_, ?_⟩
        · refine List.pairwise_cons.mpr ⟨?_, h.liveDisj⟩
          intro a ha'
          exact hlivenew a ha'
        · rw [hrg]
          refine (List.pairwise_middle (fun {x y} => Pdb.rangeDisj_symm)).mpr ?_
          refine List.pairwise_cons.mpr ⟨?_, hrest⟩
          intro e he
          have := hall e he
          simp only []
          omega
        · intro a ha' e he
          rw [hrg] at he
          rcases List.mem_cons.mp ha' with haeq | ha''
          · subst haeq
            rcases List.mem_append.mp he with hm | hm
            · have := hall e (List.mem_append_left _ hm)
              simp only []
              omega
            · rcases List.mem_cons.mp hm with hm | hm
              · subst hm
                simp only []
                omega
              · have := hall e (List.mem_append_right _ hm)
                simp only []
                omega
          · rcases List.mem_append.mp he with hm | hm
            · exact h.liveList a ha'' e
                (hsplit ▸ List.mem_append_left _ hm)
            · rcases List.mem_cons.mp hm with hm | hm
              · subst hm
                have := h.liveList a ha'' (id, r) hmemr
                simp only [] at this ⊢
                omega
              · exact h.liveList a ha'' e
                  (hsplit ▸ List.mem_append_right _ (List.mem_cons_of_mem _ hm))
      · -- exact fit: the range is removed
        rw [ha] at hrg
        simp only [] at hrg
        refine ⟨?_, ?_, ?_⟩
        · refine List.pairwise_cons.mpr ⟨?_, h.liveDisj⟩
          intro a ha'
          exact hlivenew a ha'
        · rw [hrg]
          exact hrest
        · intro a ha' e he
          rw [hrg] at he
          rcases List.mem_cons.mp ha' with haeq | ha''
          · subst haeq
            have := hall e he
            simp only []
            omega
          · rcases List.mem_append.mp he with hm | hm
            · exact h.liveList a ha'' e (hsplit ▸ List.mem_append_left _ hm)
            · exact h.liveList a ha'' e
                (hsplit ▸ List.mem_append_right _ (List.mem_cons_of_mem _ hm))
  | free off size =>
    simp only [stepTrace]
    by_cases hlive : (off, size) ∈ t.live
    · simp only [if_pos hlive]
      have hperm := Pdb.removeLive_perm hlive
      have hLP := (hperm.pairwise_iff (fun {x y} hxy => hxy.symm)).mp
        h.liveDisj
      have hLD := (List.pairwise_cons.mp hLP).2
      have h0all : ∀ a ∈ Pdb.removeLive t.live (off, size),
          off + FreeList.pad_size size ≤ a.1 ∨
            a.1 + FreeList.pad_size a.2 ≤ off := by
        intro a ha
        exact (List.pairwise_cons.mp hLP).1 a ha
      rcases Pdb.free_effect t.fl off size with heq |
        ⟨hok, pre, suf, hsplit, hins, hnr, _⟩
      · rcases hf : t.fl.free off size with ⟨res, fl'⟩
        rw [hf] at heq
        dsimp only [] at heq
        subst heq
        cases res with
        | ok =>
          dsimp only []
          refine ⟨hLD, h.listDisj, ?_⟩
          intro a ha' e he
          exact h.liveList a (Pdb.mem_of_mem_removeLive ha') e he
        | overlapError =>
          dsimp only []
          exact ⟨h.liveDisj, h.listDisj, h.liveList⟩
      · rcases hf : t.fl.free off size with ⟨res, fl'⟩
        rw [hf] at hok hins hnr
        dsimp only [] at hok hins hnr
        subst hok
        dsimp only []
        have hfreed : ∀ e ∈ t.fl.ranges,
            off + FreeList.pad_size size ≤ e.2.offset ∨
              e.2.offset + e.2.size ≤ off := by
          intro e he
          exact h.liveList (off, size) hlive e he
        refine ⟨hLD, ?_, ?_⟩
        · rw [hins]
          refine (List.pairwise_middle (fun {x y} => Pdb.rangeDisj_symm)).mpr ?_
          refine List.pairwise_cons.mpr ⟨?_, ?_⟩
          · intro e he
            have := hfreed e (by rw [hsplit]; exact he)
            dsimp only []
            omega
          · have hx := h.listDisj
            rw [hsplit] at hx
            exact hx
        · intro a ha' e he
          rw [hins] at he
          rcases List.mem_append.mp he with hm | hm
          · exact h.liveList a (Pdb.mem_of_mem_removeLive ha') e
              (by rw [hsplit]; exact List.mem_append_left _ hm)
          · rcases List.mem_cons.mp hm with hm | hm
            · subst hm
              have := h0all a ha'
              dsimp only []
              omega
            · exact h.liveList a (Pdb.mem_of_mem_removeLive ha') e
                (by rw [hsplit]; exact List.mem_append_right _ hm)
    · simp only [if_neg hlive]
      exact ⟨h.liveDisj, h.listDisj, h.liveList⟩

theorem foldl_stepTrace_inv (ops : List Op) :
    ∀ t : Trace, TraceInv t → TraceInv (ops.foldl stepTrace t) := by
  induction ops with
  | nil => intro t h; exact h
  | cons op rest ih =>
    intro t h
    exact ih _ (Pdb.stepTrace_inv h op)

theorem foldl_calls_cacheMember (ops : List Op) :
    ∀ s : FreeList, cacheMember s →
      cacheMember (ops.foldl
        (fun s op =>
          match op with
          | .alloc size => (s.allocate size).2
          | .free off size => (s.free off size).2) s) := by
  induction ops with
  | nil => intro s h; exact h
  | cons op rest ih =>
    intro s h
    cases op with
    | alloc size => exact ih _ (Pdb.allocate_cacheMember size h)
    | free off size => exact ih _ (Pdb.free_cacheMember off size h)

theorem initTrace_inv (cap : Nat) : TraceInv (initTrace cap) := by
  refine ⟨List.Pairwise.nil, ?_, ?_⟩
  · exact List.pairwise_singleton _ _
  · intro a ha
    cases ha

end Pdb

/-- C10: after any sequence of `allocate`/`free` calls on a fresh FreeList,
whenever `last_used` is `Some` it references a Range that is currently a
member of the underlying list, so the unsafe cursor construction from
`last_used` at the start of `allocate` never targets a removed Range. -/
theorem C10_cache_is_member (cap : Nat) (ops : List Pdb.Op) (id : Nat)
    (h : (Pdb.runCalls cap ops).last_used = some id) :
    ∃ r, (id, r) ∈ (Pdb.runCalls cap ops).ranges := by
  have hbase : Pdb.cacheMember (Pdb.FreeList.new cap) := by
    intro j hj
    have hj0 : j = 0 := by
      have hs : (some 0 : Option Nat) = some j := hj
      exact (Option.some.inj hs).symm
    subst hj0
    exact ⟨_, List.mem_singleton_self _⟩
  have hcm : Pdb.cacheMember (Pdb.runCalls cap ops) :=
    Pdb.foldl_calls_cacheMember ops _ hbase
  exact hcm id h

/-- C10 witness: the theorem applied to a concrete trace. -/
theorem C10_cache_is_member_witness :
    ∃ r, (0, r) ∈ (Pdb.runCalls 4096 [Pdb.Op.alloc 8]).ranges :=
  C10_cache_is_member 4096 [Pdb.Op.alloc 8] 0 (by decide)

/-! ## Claim C4: the spec's Scenario A -/

/-- C4 counterexample: starting from `FreeList::new(4096)`, the sequence
`allocate(100)`, `allocate(4000)`, `free(0, 100)`, `allocate(4000)` does not
return `Allocated(0)`, `NotFound(3996)`, `Ok`, `Allocated(0)` as the claim
states: already the second result is `NotFound 3992` (the padding adds 4
bytes to the first request), and the last is `NotFound 3992` because the
freed range `[0,104)` is never coalesced with `[104,4096)`. -/
theorem C4_scenario_counterexample :
    ¬ ((((Pdb.FreeList.new 4096).allocate 100).1 = .Allocated 0) ∧
      ((((Pdb.FreeList.new 4096).allocate 100).2.allocate 4000).1 =
        .NotFound 3996) ∧
      (((((Pdb.FreeList.new 4096).allocate 100).2.allocate 4000).2.free
          0 100).1 = .ok) ∧
      ((((((Pdb.FreeList.new 4096).allocate 100).2.allocate
          4000).2.free 0 100).2.allocate 4000).1 = .Allocated 0)) := by
  decide

/-- C4 (amended): on the 64-bit word size the source is built for, the call
sequence `allocate(100)`, `allocate(4000)`, `free(0, 100)`, `allocate(4000)`
starting from `FreeList::new(4096)` returns, in order: `Allocated(0)`,
`NotFound(3992)`, `Ok`, `NotFound(3992)`. -/
theorem C4_scenario_actual :
    ((((Pdb.FreeList.new 4096).allocate 100).1 = .Allocated 0) ∧
      ((((Pdb.FreeList.new 4096).allocate 100).2.allocate 4000).1 =
        .NotFound 3992) ∧
      (((((Pdb.FreeList.new 4096).allocate 100).2.allocate 4000).2.free
          0 100).1 = .ok) ∧
      ((((((Pdb.FreeList.new 4096).allocate 100).2.allocate
          4000).2.free 0 100).2.allocate 4000).1 = .NotFound 3992)) := by
  decide

/-! ## The unrolled linked list (src/alloc/linked_list/) -/

namespace Pdb

/-- `Location` (node.rs lines 461-472): the parent node and the absolute
in-node position of a value, updated in place as the value is moved. -/
structure Location where
  node : Nat
  position : Nat
deriving Repr, DecidableEq

/-- A list node.  The sources mix two field layouts; the one actually used by
`Node::append`/`insert`/`insert_non_full`/`remove` and by every cursor
operation is modelled: occupied slots are `[vstart, vend)` (the source's u8
fields `start`/`end`), and each slot stores the value together with the
raw pointer to its `Location` (here a location id).  A slot that was never
written holds `none` (uninitialized memory whose read is a fault); slots
outside the occupied window may retain stale copies, as the bytes do in the
source. -/
structure NodeData (α : Type) where
  previous : Option Nat
  next : Option Nat
  vstart : Nat
  vend : Nat
  values : Nat → Option (α × Nat)

/-- The list state: an arena of nodes and of locations addressed by ids
(modelling the heap), the head/tail pointers and cached length of
`LinkedList` (mod.rs lines 36-48), and freshness counters. -/
structure LL (α : Type) where
  nodes : Nat → Option (NodeData α)
  locs : Nat → Option Location
  head : Option Nat
  tail : Option Nat
  length : Nat
  nn : Nat
  nl : Nat

/-- A cursor: the current node pointer and the start-relative position, the
fields `Common` of cursor.rs actually uses. -/
structure Cur where
  node : Option Nat
  position : Nat
deriving Repr, DecidableEq

def updNode {α : Type} (s : LL α) (i : Nat) (nd : NodeData α) : LL α :=
  { s with nodes := fun j => if j = i then some nd else s.nodes j }

def delNode {α : Type} (s : LL α) (i : Nat) : LL α :=
  { s with nodes := fun j => if j = i then none else s.nodes j }

def updLoc {α : Type} (s : LL α) (i : Nat) (lc : Location) : LL α :=
  { s with locs := fun j => if j = i then some lc else s.locs j }

/-- Allocate a fresh `Location` (`Location::new`). -/
def allocLoc {α : Type} (s : LL α) (lc : Location) : LL α × Nat :=
  ({ s with locs := fun j => if j = s.nl then some lc else s.locs j
            nl := s.nl + 1 }, s.nl)

def getNode {α : Type} (s : LL α) (i : Option Nat) : Option (NodeData α) := do
  let id ← i
  s.nodes id

/-- Modelled from the spec: `Node::len` is called throughout cursor.rs and
free_list.rs but missing from the sources; the only reading consistent with
its call sites (`position + 1 < len`, `len == N`, `len == 1`, `len - 1`) is
the occupied count `end - start` in the source's u8 arithmetic, which panics
(faults) when `end < start`. -/
def nodeLen {α : Type} (nd : NodeData α) : Option Nat :=
  checkedSub nd.vend nd.vstart

/-- `Node::new` (node.rs lines 41-56): a fresh node holding one value at slot
0 together with a fresh `Location` for it.  Writing slot 0 panics when the
capacity is 0. -/
def nodeNew {α : Type} (N : Nat) (s : LL α) (val : α) :
    Option (LL α × Nat × Nat) :=
  if 0 < N then
    let nid := s.nn
    let lid := s.nl
    some
      ({ s with
          nodes := fun j => if j = nid then
            some { previous := none, next := none, vstart := 0, vend := 1,
                   values := fun k => if k = 0 then some (val, lid) else none }
            else s.nodes j
          locs := fun j => if j = lid then some ⟨nid, 0⟩ else s.locs j
          nn := nid + 1
          nl := lid + 1 }, nid, lid)
  else none

/-- `Node::set_previous` (node.rs lines 93-100): `self.previous := p`, and if
`p` is non-null, `p.next := self`. -/
def setPrevious {α : Type} (s : LL α) (selfId : Nat) (p : Option Nat) :
    Option (LL α) := do
  let nd ← s.nodes selfId
  let s1 := updNode s selfId { nd with previous := p }
  match p with
  | none => some s1
  | some pid => do
    let pnd ← s1.nodes pid
    some (updNode s1 pid { pnd with next := some selfId })

/-- `Node::set_next` (node.rs lines 113-120). -/
def setNext {α : Type} (s : LL α) (selfId : Nat) (nx : Option Nat) :
    Option (LL α) := do
  let nd ← s.nodes selfId
  let s1 := updNode s selfId { nd with next := nx }
  match nx with
  | none => some s1
  | some nxid => do
    let nnd ← s1.nodes nxid
    some (updNode s1 nxid { nnd with previous := some selfId })

/-- `Node::append` (node.rs lines 168-173): `loc := Location(self, end)`;
`values[end] := (val, loc)`; `end += 1`.  The array index panics (faults)
when the node is full. -/
def nodeAppend {α : Type} (N : Nat) (s : LL α) (nid : Nat) (val : α) :
    Option (LL α × Nat) := do
  let nd ← s.nodes nid
  let (s1, lid) := allocLoc s ⟨nid, nd.vend⟩
  if nd.vend < N then
    some (updNode s1 nid
      { nd with
          values := fun j => if j = nd.vend then some (val, lid) else nd.values j
          vend := nd.vend + 1 }, lid)
  else none

/-- `Node::append_to_previous` (node.rs lines 180-195). -/
def appendToPrevious {α : Type} (N : Nat) (s : LL α) (selfId : Nat) (val : α) :
    Option (LL α × Option Nat × Nat) := do
  let nd ← s.nodes selfId
  match nd.previous with
  | none => do
    let (s1, newId, lid) ← nodeNew N s val
    let s2 ← setPrevious s1 selfId (some newId)
    some (s2, some newId, lid)
  | some pid => do
    let pnd ← s.nodes pid
    let plen ← nodeLen pnd
    if plen = N then do
      let (s1, newId, lid) ← nodeNew N s val
      let s2 ← setNext s1 pid (some newId)
      let s3 ← setPrevious s2 selfId (some newId)
      some (s3, some newId, lid)
    else do
      let (s1, lid) ← nodeAppend N s pid val
      some (s1, none, lid)

/-- Bump the stored position of the location of every slot in `[lo, lo+cnt)`
by `f` (the `for (_, loc) in self.iter_mut()...` loops).  Reading an
uninitialized slot or applying `f` to an underflowing position faults. -/
def adjustLocs {α : Type} (s : LL α) (vals : Nat → Option (α × Nat))
    (f : Nat → Option Nat) : Nat → Nat → Option (LL α)
  | _, 0 => some s
  | lo, cnt+1 => do
    let slot ← vals lo
    let lc ← s.locs slot.2
    let p' ← f lc.position
    adjustLocs (updLoc s slot.2 ⟨lc.node, p'⟩) vals f (lo + 1) cnt

/-- Point the location of every slot in `[idx, idx+cnt)` of a freshly split
node at that node, with the slot index as position (the relabeling loop in
`Node::insert`'s split path). -/
def relabelLocs {α : Type} (s : LL α) (vals : Nat → Option (α × Nat))
    (newNode : Nat) : Nat → Nat → Option (LL α)
  | _, 0 => some s
  | idx, cnt+1 => do
    let slot ← vals idx
    relabelLocs (updLoc s slot.2 ⟨newNode, idx⟩) vals newNode (idx + 1) cnt

/-- `Node::insert_non_full` (node.rs lines 269-331), faithfully including its
middle-insertion behavior: in both shift branches the slots are moved with
`ptr::copy` exactly as the source does (shift-left copies `i` slots from
index `i` to `i-1`; shift-right copies `end - i` slots from `i` to `i+1`)
and the location positions of the iterated slots are adjusted — but the new
value is never written into the array (the source computes `new_val` and uses
it only in the prepend and append fast paths). -/
def insertNonFull {α : Type} (N : Nat) (s : LL α) (nid : Nat) (i : Nat)
    (val : α) : Option (LL α × Nat) := do
  let nd ← s.nodes nid
  let (s1, lid) := allocLoc s ⟨nid, i + nd.vstart⟩
  if i = 0 ∧ nd.vstart ≠ 0 then
    -- prepend in free space at the start of the array
    let st := nd.vstart - 1
    let s2 := updNode s1 nid
      { nd with vstart := st
                values := fun j => if j = st then some (val, lid) else nd.values j }
    some (updLoc s2 lid ⟨nid, st⟩, lid)
  else if i + nd.vstart = nd.vend then
    -- append as last value
    if nd.vend < N then
      some (updNode s1 nid
        { nd with vend := nd.vend + 1
                  values := fun j => if j = nd.vend then some (val, lid)
                    else nd.values j }, lid)
    else none
  else if i + nd.vstart ≤ nd.vend then
    let I := nd.vstart + i
    if nd.vstart ≠ 0 ∧ i ≤ (nd.vend - nd.vstart) / 2 then
      -- shift all preceding values to the left (source bug: wrong source
      -- index and count, and the new value is never stored)
      if I < N then
        let vals' : Nat → Option (α × Nat) := fun j =>
          if I - 1 ≤ j ∧ j < I - 1 + I then nd.values (j + 1) else nd.values j
        let nd' := { nd with vstart := nd.vstart - 1, values := vals' }
        let s2 := updNode s1 nid nd'
        -- `iter_mut().take(I)`: at most the occupied count of slots
        let s3 ← adjustLocs s2 vals' (fun p => checkedSub p 1)
          (nd.vstart - 1) (min I (nd.vend - (nd.vstart - 1)))
        some (s3, lid)
      else none
    else
      -- shift all following values to the right (the new value is never
      -- stored; slot I keeps its old contents)
      if I + 1 < N then
        let vals' : Nat → Option (α × Nat) := fun j =>
          if I + 1 ≤ j ∧ j < I + 1 + (nd.vend - I) then nd.values (j - 1)
          else nd.values j
        let nd' := { nd with vend := nd.vend + 1, values := vals' }
        let s2 := updNode s1 nid nd'
        -- `iter_mut().skip(I + 1)`: the skip counts occupied slots from
        -- `start`, so the remaining slots are `[start + I + 1, end + 1)`
        let s3 ← adjustLocs s2 vals' (fun p => some (p + 1))
          (nd.vstart + I + 1) (nd.vend + 1 - (nd.vstart + I + 1))
        some (s3, lid)
      else none
  else none   -- assert!: insertion would result in sparse array

/-- `Node::insert` (node.rs lines 227-261): plain insert while there is spare
capacity, otherwise split by moving `values[i..]` into a brand-new next
node, rewriting the moved values' locations, writing the new value at slot
`i` of the shortened node, and relinking the neighbor chain. -/
def nodeInsert {α : Type} (N : Nat) (s : LL α) (nid : Nat) (i : Nat)
    (val : α) : Option (LL α × Option Nat × Nat) := do
  let nd ← s.nodes nid
  let len ← nodeLen nd
  if len < N then do
    let (s1, lid) ← insertNonFull N s nid i val
    some (s1, none, lid)
  else do
    let newLen ← checkedSub nd.vend i
    let newId := s.nn
    let newVals : Nat → Option (α × Nat) := fun j =>
      if j < newLen then nd.values (i + j) else none
    let s1 : LL α :=
      { s with
          nodes := fun j => if j = newId then
            some { previous := none, next := none, vstart := 0,
                   vend := newLen, values := newVals }
            else s.nodes j
          nn := s.nn + 1 }
    let s2 ← relabelLocs s1 newVals newId 0 newLen
    let (s3, lid) := allocLoc s2 ⟨nid, i⟩
    if i < N then
      let s4 := updNode s3 nid
        { nd with vend := i + 1
                  values := fun j => if j = i then some (val, lid)
                    else nd.values j }
      let s5 ← match nd.next with
        | some nx => setPrevious s4 nx (some newId)
        | none => some s4
      let s6 ← setNext s5 nid (some newId)
      some (s6, some newId, lid)
    else none

/-- `Node::prepend_to_next` (node.rs lines 202-217). -/
def prependToNext {α : Type} (N : Nat) (s : LL α) (selfId : Nat) (val : α) :
    Option (LL α × Option Nat × Nat) := do
  let nd ← s.nodes selfId
  match nd.next with
  | none => do
    let (s1, newId, lid) ← nodeNew N s val
    let s2 ← setNext s1 selfId (some newId)
    some (s2, some newId, lid)
  | some nxid => do
    let nnd ← s.nodes nxid
    let nlen ← nodeLen nnd
    if nlen = N then do
      let (s1, newId, lid) ← nodeNew N s val
      let s2 ← setPrevious s1 nxid (some newId)
      let s3 ← setNext s2 selfId (some newId)
      some (s3, some newId, lid)
    else do
      let (s1, lid) ← insertNonFull N s nxid 0 val
      some (s1, none, lid)

/-- `Node::remove` (node.rs lines 353-425): the passed index is
start-relative (`i += this.start`); a sole value in a node with no siblings
keeps the node and sets `end := 0` (without resetting `start`); a sole value
with a sibling unlinks exactly as the source does (`(*this.previous)
.set_previous(this.next)` when a previous node exists) and deallocates the
node; otherwise the cheaper side is shifted and the shifted slots' location
positions adjusted with the source's counts. -/
def nodeRemove {α : Type} (N : Nat) (s : LL α) (nid : Nat) (ipassed : Nat) :
    Option (LL α × α × Nat × Bool) := do
  let nd ← s.nodes nid
  let i := ipassed + nd.vstart
  if i < nd.vend ∧ i < N then do
    let slot ← nd.values i
    let len ← nodeLen nd
    if len = 1 then
      if nd.previous = none ∧ nd.next = none then
        some (updNode s nid { nd with vend := 0 }, slot.1, slot.2, false)
      else do
        let s1 ← match nd.previous with
          | some p => setPrevious s p nd.next
          | none =>
            match nd.next with
            | some nx => do
              let nxd ← s.nodes nx
              some (updNode s nx { nxd with previous := none })
            | none => none
        some (delNode s1 nid, slot.1, slot.2, true)
    else if i = nd.vstart then
      some (updNode s nid { nd with vstart := nd.vstart + 1 },
        slot.1, slot.2, false)
    else if i = nd.vend - 1 then
      some (updNode s nid { nd with vend := nd.vend - 1 },
        slot.1, slot.2, false)
    else
      if i - nd.vstart ≤ nd.vend - i then do
        -- shift all preceding values to the right
        let copying := i - nd.vstart
        let vals' : Nat → Option (α × Nat) := fun j =>
          if nd.vstart + 1 ≤ j ∧ j < nd.vstart + 1 + copying then
            nd.values (j - 1)
          else nd.values j
        let s1 := updNode s nid
          { nd with vstart := nd.vstart + 1, values := vals' }
        let s2 ← adjustLocs s1 vals' (fun p => some (p + 1))
          (nd.vstart + 1) copying
        some (s2, slot.1, slot.2, false)
      else do
        -- shift all following values to the left; the source's count
        -- `end - i` is one larger than the number of shifted values, so the
        -- location loop also decrements the predecessor's position
        let copying := nd.vend - i
        let vals' : Nat → Option (α × Nat) := fun j =>
          if i ≤ j ∧ j < i + copying then nd.values (j + 1) else nd.values j
        let s1 := updNode s nid { nd with vend := nd.vend - 1, values := vals' }
        let s2 ← adjustLocs s1 vals' (fun p => checkedSub p 1)
          (nd.vend - 1 - copying) copying
        some (s2, slot.1, slot.2, false)
  else none   -- assert!(i < this.end) or array index panic

end Pdb

namespace Pdb

/-- `Common::next` (cursor.rs lines 31-43). -/
def curNext {α : Type} (s : LL α) (c : Cur) : Option (Cur × Bool) := do
  let nd ← getNode s c.node
  let len ← nodeLen nd
  if c.position + 1 < len then
    some ({ c with position := c.position + 1 }, true)
  else
    match nd.next with
    | some nx => some (⟨some nx, 0⟩, true)
    | none => some (c, false)

/-- `Common::previous` (cursor.rs lines 49-63). -/
def curPrevious {α : Type} (s : LL α) (c : Cur) : Option (Cur × Bool) := do
  if c.position ≠ 0 then
    some ({ c with position := c.position - 1 }, true)
  else do
    let nd ← getNode s c.node
    match nd.previous with
    | some p => do
      let pnd ← s.nodes p
      let plen ← nodeLen pnd
      let pos ← checkedSub plen 1
      some (⟨some p, pos⟩, true)
    | none => some (c, false)

/-- `Common::seek_to_start` (cursor.rs lines 67-69): sets only the node; the
position is left unchanged, as in the source. -/
def seekToStart {α : Type} (s : LL α) (c : Cur) : Cur :=
  ⟨s.head, c.position⟩

/-- `Common::seek_to_end` (cursor.rs lines 73-82). -/
def seekToEnd {α : Type} (s : LL α) (c : Cur) : Option Cur := do
  if s.length = 0 then
    some (seekToStart s c)
  else do
    let tid ← s.tail
    let nd ← s.nodes tid
    let len ← nodeLen nd
    let pos ← checkedSub len 1
    some ⟨some tid, pos⟩

/-- `CursorMut::value` (cursor.rs lines 204-210), with `Node::value_mut`
modelled from the spec (it is called by cursor.rs but missing from the
sources): the value of the slot at the start-relative cursor position, i.e.
`values[start + position]`.  The outer `none` is a fault (null or dangling
node, u8 underflow in `len`, array index panic, or an uninitialized read);
the inner `none` is the source's `None` for the empty list. -/
def curValue {α : Type} (N : Nat) (s : LL α) (c : Cur) : Option (Option α) := do
  let nd ← getNode s c.node
  let len ← nodeLen nd
  if len = 0 then
    some none
  else
    if nd.vstart + c.position < N then
      match nd.values (nd.vstart + c.position) with
      | some slot => some (some slot.1)
      | none => none
    else none

/-- `CursorMut::reference` (cursor.rs lines 216-218, `Common::reference`
lines 89-95), with `Node::reference` modelled from the spec: the `Ref` (the
location id) stored with the current slot. -/
def curReference {α : Type} (N : Nat) (s : LL α) (c : Cur) :
    Option (Option Nat) := do
  let nd ← getNode s c.node
  let len ← nodeLen nd
  if len = 0 then
    some none
  else
    if nd.vstart + c.position < N then
      match nd.values (nd.vstart + c.position) with
      | some slot => some (some slot.2)
      | none => none
    else none

/-- `Ref::cursor_mut` (node.rs lines 506-511): a cursor at the Location's
recorded node and position.  Note that the source passes the Location's
absolute in-node position where every cursor operation expects a
start-relative one. -/
def refCursorMut {α : Type} (s : LL α) (lid : Nat) : Option Cur := do
  let lc ← s.locs lid
  some ⟨some lc.node, lc.position⟩

/-- `CursorMut::insert_before` (cursor.rs lines 228-257). -/
def insertBefore {α : Type} (N : Nat) (s : LL α) (c : Cur) (val : α) :
    Option (LL α × Cur × Nat) := do
  let s0 := { s with length := s.length + 1 }
  let nd ← getNode s0 c.node
  let len ← nodeLen nd
  let selfId ← c.node
  if len = 0 then do
    let c1 : Cur := ⟨c.node, 0⟩
    let (s1, lid) ← nodeAppend N s0 selfId val
    some (s1, c1, lid)
  else if c.position = 0 ∧ len = N then do
    -- append to previous node
    let (s1, newNode, lid) ← appendToPrevious N s0 selfId val
    let s2 := if s1.head = some selfId then { s1 with head := newNode } else s1
    some (s2, c, lid)
  else do
    -- insert into current node and possibly split it
    let (s1, newNode, lid) ← nodeInsert N s0 selfId c.position val
    let s2 := match newNode with
      | some nid =>
        if s1.tail = some selfId then { s1 with tail := some nid } else s1
      | none => s1
    -- advance back to next value to maintain API consistency
    let (c', _) ← curNext s2 c
    some (s2, c', lid)

/-- `CursorMut::insert_after` (cursor.rs lines 261-289). -/
def insertAfter {α : Type} (N : Nat) (s : LL α) (c : Cur) (val : α) :
    Option (LL α × Cur × Nat) := do
  let s0 := { s with length := s.length + 1 }
  let nd ← getNode s0 c.node
  let len ← nodeLen nd
  let selfId ← c.node
  if len = 0 then do
    -- append to start of node
    let c1 : Cur := ⟨c.node, 0⟩
    let (s1, lid) ← nodeAppend N s0 selfId val
    some (s1, c1, lid)
  else if len = N ∧ c.position = N - 1 then do
    -- prepend to next node
    let (s1, newNode, lid) ← prependToNext N s0 selfId val
    let s2 := match newNode with
      | some nid =>
        if s1.tail = some selfId then { s1 with tail := some nid } else s1
      | none => s1
    some (s2, c, lid)
  else do
    -- insert into existing node, possibly splitting it
    let (s1, newNode, lid) ← nodeInsert N s0 selfId (c.position + 1) val
    let s2 := match newNode with
      | some nid =>
        if s1.tail = some selfId then { s1 with tail := some nid } else s1
      | none => s1
    some (s2, c, lid)

/-- `CursorMut::remove` (cursor.rs lines 301-326): `None` when the list is
empty; otherwise navigate to the previous (else next) position ahead of
time, remove the saved slot, and fix up `head`/`tail` when the node itself
was deallocated. -/
def curRemove {α : Type} (N : Nat) (s : LL α) (c : Cur) :
    Option (LL α × Cur × Option (α × Nat)) := do
  if s.length = 0 then
    some (s, c, none)
  else do
    let s0 := { s with length := s.length - 1 }
    let (c1, moved) ← curPrevious s0 c
    let c2 ← if moved then pure c1 else do
      let (c2', _) ← curNext s0 c1
      pure c2'
    let rmId ← c.node
    let (s1, v, lid, removed) ← nodeRemove N s0 rmId c.position
    let s2 :=
      if removed then
        let sA := if s1.head = c.node then { s1 with head := c2.node } else s1
        if sA.tail = c.node then { sA with tail := c2.node } else sA
      else s1
    some (s2, c2, some (v, lid))

/-- Modelled from the spec: `LinkedList::new`.  mod.rs initializes `head` and
`tail` to null, but the struct documents both as guaranteed non-null, the
repository's own tests assert a non-null head even for an empty list, and
every cursor operation (including the first insertion into an empty list)
dereferences the cursor's node unconditionally; `Node::remove` likewise
preserves a zero-length first node rather than ever leaving the list
empty-handed.  Spec section 9 records the two variants and this model takes
the coherent one: a fresh list holds a single empty placeholder node that is
both head and tail. -/
def newList (α : Type) : LL α :=
  { nodes := fun j => if j = 0 then
      some { previous := none, next := none, vstart := 0, vend := 0,
             values := fun _ => none }
      else none
    locs := fun _ => none
    head := some 0
    tail := some 0
    length := 0
    nn := 1
    nl := 0 }

/-- `LinkedList::cursor_mut` (mod.rs lines 77-79): a cursor at the head with
position 0. -/
def cursorMut {α : Type} (s : LL α) : Cur := ⟨s.head, 0⟩

/-- The forward iterator (mod.rs `IterMut` with `Forward`): yield the current
value, then keep advancing and yielding until `next()` fails or `value()`
returns `None`.  The fuel argument bounds the loop; `length + 1` rounds are
sufficient for any state whose traversal terminates. -/
def iterFrom {α : Type} (N : Nat) (s : LL α) : Cur → Nat → Option (List α)
  | _, 0 => none
  | c, fuel+1 => do
    let v? ← curValue N s c
    match v? with
    | none => some []
    | some v => do
      let (c', moved) ← curNext s c
      if moved then do
        let rest ← iterFrom N s c' fuel
        some (v :: rest)
      else
        some [v]

/-- The backward iterator (mod.rs `IterMut` with `Backward`). -/
def iterRevFrom {α : Type} (N : Nat) (s : LL α) : Cur → Nat → Option (List α)
  | _, 0 => none
  | c, fuel+1 => do
    let v? ← curValue N s c
    match v? with
    | none => some []
    | some v => do
      let (c', moved) ← curPrevious s c
      if moved then do
        let rest ← iterRevFrom N s c' fuel
        some (v :: rest)
      else
        some [v]

/-- `LinkedList::iter_mut` (mod.rs lines 90-94), collected to a list. -/
def iterMut {α : Type} (N : Nat) (s : LL α) : Option (List α) :=
  iterFrom N s (cursorMut s) (s.length + 1)

/-- `LinkedList::iter_mut_reverse` (mod.rs lines 97-105), collected to a
list. -/
def iterMutReverse {α : Type} (N : Nat) (s : LL α) : Option (List α) := do
  let c ← seekToEnd s (cursorMut s)
  iterRevFrom N s c (s.length + 1)

/-- One step of `FromIterator::from_iter`'s loop (mod.rs lines 215-223):
`c.insert_after(val); c.next();`. -/
def fromIterStep {α : Type} (N : Nat) (acc : Option (LL α × Cur)) (val : α) :
    Option (LL α × Cur) := do
  let (s, c) ← acc
  let (s1, c1, _) ← insertAfter N s c val
  let (c2, _) ← curNext s1 c1
  some (s1, c2)

/-- `FromIterator for LinkedList` (mod.rs lines 211-224). -/
def fromIterator {α : Type} (N : Nat) (xs : List α) : Option (LL α × Cur) :=
  xs.foldl (fromIterStep N) (some (newList α, cursorMut (newList α)))

end Pdb

/-! ## Claims C1, C7, C8: concrete executions of the list operations -/

namespace Pdb

/-- C1 scenario (node capacity 4): insert 1 and 2, take a `Ref` to 2, move
back onto 1, remove 1 (which bumps the node's `start` to 1 without moving 2,
so 2's Location correctly still records absolute position 1).  Returns the
final state and the `Ref` (location id) taken for 2. -/
def c1Scenario : Option (LL Nat × Nat) := do
  let s0 := newList Nat
  let c0 := cursorMut s0
  let (s1, c1, _) ← insertAfter 4 s0 c0 1
  let (s2, c2, _) ← insertAfter 4 s1 c1 2
  let (c3, _) ← curNext s2 c2
  let r? ← curReference 4 s2 c3
  let r ← r?
  let (c4, _) ← curPrevious s2 c3
  let (s5, _, _) ← curRemove 4 s2 c4
  some (s5, r)

/-- C7 scenario (node capacity 4): build [1, 2, 3] in one node, position the
cursor on 1 (the head element, which has no predecessor), and remove it.
Returns the final state, the cursor after removal, and the removed value. -/
def c7Scenario : Option (LL Nat × Cur × Nat) := do
  let s0 := newList Nat
  let c0 := cursorMut s0
  let (s1, c1, _) ← insertAfter 4 s0 c0 1
  let (s2, c2, _) ← insertAfter 4 s1 c1 2
  let (c3, _) ← curNext s2 c2
  let (s3, c4, _) ← insertAfter 4 s2 c3 3
  let (c5, _) ← curPrevious s3 c4
  let (s4, c6, vr) ← curRemove 4 s3 c5
  let (v, _) ← vr
  some (s4, c6, v)

/-- C8 scenario (node capacity 4): insert 1 and 2, remove 1 (bumping the
node's `start` to 1), seek to the end, and remove 2 — `Node::remove`'s
sole-value case sets `end := 0` without resetting `start`, leaving the
placeholder node with `start = 1 > end = 0`. -/
def c8Scenario : Option (LL Nat) := do
  let s0 := newList Nat
  let c0 := cursorMut s0
  let (s1, c1, _) ← insertAfter 4 s0 c0 1
  let (s2, c2, _) ← insertAfter 4 s1 c1 2
  let (s3, c3, _) ← curRemove 4 s2 c2
  let c4 ← seekToEnd s3 c3
  let (s4, _, _) ← curRemove 4 s3 c4
  some s4

end Pdb

/-- C1: the stable-reference guarantee is broken by `Ref::cursor_mut`.  In
the C1 scenario the unrelated removal of 1 leaves 2 in the list (forward
iteration still yields `[2]`) and 2's Location is correctly maintained in
place (it records node 0, absolute slot 1, where 2 indeed resides) — but
re-entering the list through 2's Ref does not reach 2: `Ref::cursor_mut`
passes the Location's absolute position (1) as the cursor's start-relative
position, so with `start = 1` the re-entry reads slot `start + 1 = 2`, which
is uninitialized memory (a fault in the model), instead of `some (some 2)`
as the claim requires. -/
theorem C1_ref_reentry_reads_wrong_slot :
    (do let (s5, _) ← Pdb.c1Scenario; Pdb.iterMut 4 s5) = some [2] ∧
    (do let (s5, r) ← Pdb.c1Scenario; s5.locs r) =
      some { node := 0, position := 1 } ∧
    (do let (s5, r) ← Pdb.c1Scenario
        let c ← Pdb.refCursorMut s5 r
        Pdb.curValue 4 s5 c) = none := by
  refine ⟨rfl, rfl, rfl⟩

/-- C7: removing the head element of a multi-value head node leaves the
cursor one element past the follower.  In the C7 scenario (list [1, 2, 3],
cursor on 1) `remove` returns the removed value 1 and leaves the list as
[2, 3], and on an empty list it returns `None` — but the cursor ends on 3,
not on the element 2 that followed the removed one: the ahead-of-time
navigation moves to relative position 1 before `Node::remove` bumps the
node's `start`, which shifts every remaining element's relative position
down by one. -/
theorem C7_remove_cursor_lands_past_follower :
    (do let (_, _, v) ← Pdb.c7Scenario; some v) = some 1 ∧
    (do let (s4, _, _) ← Pdb.c7Scenario; Pdb.iterMut 4 s4) = some [2, 3] ∧
    (do let (s4, c6, _) ← Pdb.c7Scenario; Pdb.curValue 4 s4 c6) =
      some (some 3) ∧
    (Pdb.curRemove 4 (Pdb.newList Nat)
      (Pdb.cursorMut (Pdb.newList Nat))).map (fun t => t.2.2) = some none := by
  refine ⟨rfl, rfl, rfl, rfl⟩

/-- C8: the cached length and forward traversal disagree after a fault-free
operation sequence.  In the C8 scenario `len()` is 0, but the emptied
placeholder node is left with `start = 1, end = 0` (the sole-value case of
`Node::remove` assigns `end := 0` without resetting `start`), so the
traversal's very first `value()` call underflows the node's u8 length and
faults instead of counting 0 values — the repository's own `validate` test
helper asserts exactly the equality this breaks. -/
theorem C8_len_negative_placeholder :
    (Pdb.c8Scenario.map (fun s => s.length)) = some 0 ∧
    (do let s ← Pdb.c8Scenario; Pdb.iterMut 4 s) = none ∧
    (do let s ← Pdb.c8Scenario
        let nd ← s.nodes 0
        some (nd.vstart, nd.vend)) = some (1, 0) := by
  refine ⟨rfl, rfl, rfl⟩

namespace Pdb

variable {α : Type}

def fiBump (nd : NodeData α) (x : α) (lid : Nat) : NodeData α :=
  { nd with
      vend := nd.vend + 1
      values := fun j => if j = nd.vend then some (x, lid) else nd.values j }

def fiPartialState (s : LL α) (nd : NodeData α) (m r : Nat) (x : α) : LL α :=
  { s with
      length := s.length + 1
      nl := s.nl + 1
      locs := fun j => if j = s.nl then some (⟨m, r⟩ : Location) else s.locs j
      nodes := fun k => if k = m then some (fiBump nd x s.nl)
        else s.nodes k }

theorem fromIterStep_partial_eval {N m r : Nat} {s : LL α} {nd : NodeData α}
    (hnd : s.nodes m = some nd) (hvs : nd.vstart = 0) (hver : nd.vend = r)
    (hr1 : 1 ≤ r) (hrN : r < N) (x : α) :
    fromIterStep N (some (s, ⟨some m, r - 1⟩)) x =
      some (fiPartialState s nd m r x, ⟨some m, r⟩) := by
  have ha : ¬ (r = 0) := by omega
  have hb : ¬ (r = N) := by omega
  have hc : r - 1 + 1 = r := by omega
  simp only [fromIterStep, insertAfter, nodeInsert, insertNonFull, getNode,
    nodeLen, checkedSub, allocLoc, updNode, curNext, fiPartialState, fiBump,
    Option.bind_eq_bind, Option.some_bind, hnd, hvs, hver, hc, ha, hb, hrN,
    Nat.add_zero, Nat.sub_zero, Nat.zero_le, if_true, if_false, Nat.lt_irrefl,
    false_and, true_and, and_true, and_false, ne_eq, not_true, not_false_eq_true,
    eq_self_iff_true, Nat.lt_add_one, Nat.lt_succ_self, ite_true, ite_false]

def fiFullState (s : LL α) (nd : NodeData α) (m : Nat) (x : α) : LL α :=
  { nodes := fun j =>
      if j = m + 1 then
        some { previous := some m, next := none, vstart := 0, vend := 1,
               values := fun k => if k = 0 then some (x, s.nl) else none }
      else if j = m then some { nd with next := some (m + 1) }
      else if j = m + 1 then
        some { previous := none, next := none, vstart := 0, vend := 1,
               values := fun k => if k = 0 then some (x, s.nl) else none }
      else s.nodes j
    locs := fun j => if j = s.nl then some ⟨m + 1, 0⟩ else s.locs j
    head := s.head
    tail := some (m + 1)
    length := s.length + 1
    nn := m + 1 + 1
    nl := s.nl + 1 }

theorem fromIterStep_full_eval {N m : Nat} {s : LL α} {nd : NodeData α}
    (hnd : s.nodes m = some nd) (hvs : nd.vstart = 0) (hver : nd.vend = N)
    (hnext : nd.next = none) (htail : s.tail = some m) (hnn : s.nn = m + 1)
    (hN : 1 ≤ N) (x : α) :
    fromIterStep N (some (s, ⟨some m, N - 1⟩)) x =
      some (fiFullState s nd m x, ⟨some (m + 1), 0⟩) := by
  have h0 : 0 < N := hN
  have hN0 : ¬ (N = 0) := by omega
  have hx1 : ¬ (m = m + 1) := by omega
  have hx2 : ¬ (m + 1 = m) := by omega
  have hcN : N - 1 + 1 = N := by omega
  simp only [fromIterStep, insertAfter, prependToNext, nodeNew, setNext,
    setPrevious, getNode, nodeLen, checkedSub, allocLoc, updNode, curNext,
    fiFullState, Option.bind_eq_bind, Option.some_bind, hnd, hvs, hver, hnext,
    htail, hnn, h0, hN0, hx1, hx2, hcN, Nat.add_zero, Nat.sub_zero, Nat.zero_le,
    if_true, if_false, Nat.lt_irrefl, false_and, true_and, and_true, and_false,
    and_self, ne_eq, not_true, not_false_eq_true, eq_self_iff_true,
    Nat.lt_add_one, Nat.lt_succ_self, ite_true, ite_false]

def fiBaseState (α : Type) (x : α) : LL α :=
  { nodes := fun j =>
      if j = 0 then
        some { previous := none, next := none, vstart := 0, vend := 1,
               values := fun k => if k = 0 then some (x, 0) else none }
      else if j = 0 then
        some { previous := none, next := none, vstart := 0, vend := 0,
               values := fun _ => none }
      else none
    locs := fun j => if j = 0 then some ⟨0, 0⟩ else none
    head := some 0
    tail := some 0
    length := 1
    nn := 1
    nl := 1 }

theorem fromIterStep_base_eval {N : Nat} (hN : 1 ≤ N) (x : α) :
    fromIterStep N (some (newList α, ⟨some 0, 0⟩)) x =
      some (fiBaseState α x, ⟨some 0, 0⟩) := by
  have h0 : 0 < N := hN
  simp only [fromIterStep, insertAfter, nodeAppend, getNode, nodeLen,
    checkedSub, allocLoc, updNode, curNext, newList, fiBaseState,
    Option.bind_eq_bind, Option.some_bind, h0, Nat.add_zero, Nat.sub_zero,
    Nat.zero_add, Nat.zero_le, if_true, if_false, Nat.lt_irrefl, false_and,
    true_and, and_true, and_false, and_self, ne_eq, not_true,
    not_false_eq_true, eq_self_iff_true, Nat.lt_add_one, Nat.lt_succ_self,
    ite_true, ite_false]

structure FIShape (N m r : Nat) (xs : List α) (s : LL α) : Prop where
  len_eq : xs.length = m * N + r
  r_pos : 1 ≤ r
  r_le : r ≤ N
  head_eq : s.head = some 0
  tail_eq : s.tail = some m
  length_eq : s.length = xs.length
  nn_eq : s.nn = m + 1
  nodes_shape : ∀ k, k ≤ m → ∃ nd, s.nodes k = some nd ∧
    nd.previous = (if k = 0 then none else some (k - 1)) ∧
    nd.next = (if k = m then none else some (k + 1)) ∧
    nd.vstart = 0 ∧
    nd.vend = (if k < m then N else r) ∧
    ∀ j, j < nd.vend → (nd.values j).map Prod.fst = xs.get? (k * N + j)

theorem fiBaseState_shape {N : Nat} (hN : 1 ≤ N) (x : α) :
    FIShape N 0 1 [x] (fiBaseState α x) := by
  refine ⟨by simp, le_refl 1, hN, rfl, rfl, rfl, rfl, ?_⟩
  intro k hk
  interval_cases k
  refine ⟨{ previous := none, next := none, vstart := 0, vend := 1,
            values := fun k => if k = 0 then some (x, 0) else none },
    by simp [fiBaseState], by simp, by simp, rfl, by simp, ?_⟩
  intro j hj
  interval_cases j
  simp

theorem step_partial {N m r : Nat} {xs : List α} {s : LL α}
    (hsh : FIShape N m r xs s) (hrN : r < N) (x : α) :
    ∃ t, fromIterStep N (some (s, ⟨some m, r - 1⟩)) x = some (t, ⟨some m, r⟩) ∧
      FIShape N m (r + 1) (xs ++ [x]) t := by
  obtain ⟨nd, hnd, hprev, hnext, hvs, hvend, hvals⟩ :=
    hsh.nodes_shape m (le_refl m)
  have hver : nd.vend = r := by simpa using hvend
  refine ⟨fiPartialState s nd m r x,
    fromIterStep_partial_eval hnd hvs hver hsh.r_pos hrN x, ?_⟩
  refine ⟨?_, by omega, by omega, hsh.head_eq, hsh.tail_eq, ?_, hsh.nn_eq, ?_⟩
  · simp [hsh.len_eq]; omega
  · simp [fiPartialState, hsh.length_eq, hsh.len_eq]
  intro k hk
  by_cases hkm : k = m
  · subst hkm
    refine ⟨fiBump nd x s.nl, by simp [fiPartialState], ?_, ?_, ?_, ?_, ?_⟩
    · simpa [fiBump] using hprev
    · simpa [fiBump] using hnext
    · simpa [fiBump] using hvs
    · simp [fiBump, hver]
    · intro j hj
      simp only [fiBump] at hj ⊢
      by_cases hjr : j = nd.vend
      · subst hjr
        have hlen : k * N + nd.vend = xs.length := by
          rw [hsh.len_eq, hver]
        rw [if_pos rfl, hlen, List.get?_concat_length]
        rfl
      · have hj' : j < nd.vend := by omega
        have hlt : k * N + j < xs.length := by
          rw [hsh.len_eq]; omega
        rw [if_neg hjr, hvals j hj', List.get?_append hlt]
  · obtain ⟨nd2, hnd2, hp2, hn2, hs2, he2, hv2⟩ := hsh.nodes_shape k hk
    have hkm' : k < m := by omega
    refine ⟨nd2, by simp [fiPartialState, hkm]; exact hnd2, ?_, ?_, hs2, ?_, ?_⟩
    · exact hp2
    · simpa [hkm] using hn2
    · simpa [hkm'] using he2
    · intro j hj
      rw [hv2 j hj]
      have hje : j < N := by
        have := he2; simp [hkm'] at this; omega
      have : k * N + j < xs.length := by
        rw [hsh.len_eq]
        have : k * N + N ≤ m * N := by
          have : k + 1 ≤ m := by omega
          calc k * N + N = (k + 1) * N := by ring
          _ ≤ m * N := Nat.mul_le_mul_right N this
        omega
      rw [List.get?_append this]

theorem step_full {N m : Nat} {xs : List α} {s : LL α}
    (hsh : FIShape N m N xs s) (hN : 1 ≤ N) (x : α) :
    ∃ t, fromIterStep N (some (s, ⟨some m, N - 1⟩)) x =
        some (t, ⟨some (m + 1), 0⟩) ∧
      FIShape N (m + 1) 1 (xs ++ [x]) t := by
  obtain ⟨nd, hnd, hprev, hnext, hvs, hvend, hvals⟩ :=
    hsh.nodes_shape m (le_refl m)
  have hver : nd.vend = N := by simpa using hvend
  have hnx : nd.next = none := by simpa using hnext
  refine ⟨fiFullState s nd m x,
    fromIterStep_full_eval hnd hvs hver hnx hsh.tail_eq hsh.nn_eq hN x, ?_⟩
  refine ⟨?_, le_refl 1, hN, hsh.head_eq, rfl, ?_, rfl, ?_⟩
  · simp only [List.length_append, List.length_singleton, hsh.len_eq]; ring
  · simp [fiFullState, hsh.length_eq]
  intro k hk
  by_cases hk1 : k = m + 1
  · subst hk1
    refine ⟨{ previous := some m, next := none, vstart := 0, vend := 1,
              values := fun j => if j = 0 then some (x, s.nl) else none },
      by simp [fiFullState], by simp, by simp, rfl, by simp, ?_⟩
    intro j hj
    have hj1 : j < 1 := hj
    have hj0 : j = 0 := by omega
    subst hj0
    have hlen2 : (m + 1) * N + 0 = xs.length := by rw [hsh.len_eq]; ring
    rw [hlen2, List.get?_concat_length]
    rfl
  · by_cases hkm : k = m
    · subst hkm
      refine ⟨{ nd with next := some (k + 1) },
        by simp [fiFullState, hk1], by simpa using hprev, by simp [hk1], hvs,
        by simp [hk1, hver], ?_⟩
      intro j hj
      have hj' : j < nd.vend := hj
      have hjN : j < N := by omega
      have hlt : k * N + j < xs.length := by
        rw [hsh.len_eq]; omega
      show Option.map Prod.fst (nd.values j) = (xs ++ [x]).get? (k * N + j)
      rw [hvals j hj', List.get?_append hlt]
    · obtain ⟨nd2, hnd2, hp2, hn2, hs2, he2, hv2⟩ := hsh.nodes_shape k (by omega)
      have hkm' : k < m := by omega
      refine ⟨nd2, by simp [fiFullState, hk1, hkm]; exact hnd2, hp2, ?_, hs2,
        ?_, ?_⟩
      · simpa [hkm, hk1] using hn2
      · simpa [hkm', Nat.lt_succ_of_lt hkm'] using he2
      · intro j hj
        have hjN : j < N := by
          have := he2; simp [hkm'] at this; omega
        have hlt : k * N + j < xs.length := by
          rw [hsh.len_eq]
          have h1 : k * N + N ≤ m * N := by
            have h2 : k + 1 ≤ m := by omega
            calc k * N + N = (k + 1) * N := by ring
            _ ≤ m * N := Nat.mul_le_mul_right N h2
          omega
        rw [hv2 j hj, List.get?_append hlt]

theorem fromIterator_shape {N : Nat} (hN : 1 ≤ N) (xs : List α) :
    xs = [] ∨ ∃ m r s, fromIterator N xs = some (s, ⟨some m, r - 1⟩) ∧
      FIShape N m r xs s := by
  induction xs using List.reverseRecOn with
  | nil => exact Or.inl rfl
  | append_singleton ys y ih =>
    right
    have hfa : fromIterator N (ys ++ [y]) =
        fromIterStep N (fromIterator N ys) y := by
      simp [fromIterator, List.foldl_append]
    rcases ih with hnil | ⟨m, r, s, heq, hsh⟩
    · subst hnil
      refine ⟨0, 1, fiBaseState α y, ?_, fiBaseState_shape hN y⟩
      rw [hfa]
      have hbase : fromIterator N ([] : List α) =
          some (newList α, ⟨some 0, 0⟩) := rfl
      rw [hbase]
      simpa using fromIterStep_base_eval hN y
    · rcases Nat.lt_or_ge r N with hrN | hrN
      · obtain ⟨t, heval, hsh2⟩ := step_partial hsh hrN y
        refine ⟨m, r + 1, t, ?_, hsh2⟩
        rw [hfa, heq]
        simpa using heval
      · have hre : r = N := by have := hsh.r_le; omega
        subst hre
        obtain ⟨t, heval, hsh2⟩ := step_full hsh hN y
        refine ⟨m + 1, 1, t, ?_, hsh2⟩
        rw [hfa, heq]
        simpa using heval

theorem iterFrom_shape {N m r : Nat} {xs : List α} {s : LL α}
    (hsh : FIShape N m r xs s) :
    ∀ fuel k j, k ≤ m → j < (if k < m then N else r) →
      xs.length - (k * N + j) < fuel →
      iterFrom N s ⟨some k, j⟩ fuel = some (xs.drop (k * N + j)) := by
  intro fuel
  induction fuel with
  | zero => intro k j _ _ hfuel; omega
  | succ fuel ih =>
    intro k j hk hj hfuel
    obtain ⟨nd, hnd, hprev, hnext, hvs, hvend, hvals⟩ := hsh.nodes_shape k hk
    have hjlt : j < nd.vend := by rw [hvend]; exact hj
    have hjN : j < N := by
      by_cases h : k < m
      · simpa [h] using hj
      · exact lt_of_lt_of_le (by simpa [h] using hj) hsh.r_le
    have hidx : k * N + j < xs.length := by
      rw [hsh.len_eq]
      by_cases h : k < m
      · have h1 : k * N + N ≤ m * N := by
          have h2 : k + 1 ≤ m := h
          calc k * N + N = (k + 1) * N := by ring
          _ ≤ m * N := Nat.mul_le_mul_right N h2
        have := hsh.r_pos
        omega
      · have hkm : k = m := by omega
        subst hkm
        have hjr : j < r := by simpa [h] using hj
        omega
    have hvj := hvals j hjlt
    obtain ⟨slot, hslot⟩ : ∃ slot, nd.values j = some slot := by
      cases hval : nd.values j
      · rw [hval, List.get?_eq_get hidx] at hvj
        simp at hvj
      · exact ⟨_, rfl⟩
    have hv1 : slot.1 = xs.get ⟨k * N + j, hidx⟩ := by
      rw [hslot, List.get?_eq_get hidx] at hvj
      simpa using hvj
    have hv0 : ¬ (nd.vend = 0) := by omega
    have hcv : curValue N s ⟨some k, j⟩ = some (some slot.1) := by
      simp only [curValue, getNode, nodeLen, checkedSub, Option.bind_eq_bind,
        Option.some_bind, hnd, hvs, Nat.sub_zero, Nat.zero_le, Nat.zero_add,
        hslot, hv0, hjN, if_true, if_false, ite_true, ite_false,
        eq_self_iff_true, not_false_eq_true]
    have hdrop : xs.drop (k * N + j) = slot.1 :: xs.drop (k * N + j + 1) := by
      rw [List.drop_eq_get_cons hidx, hv1]
    by_cases hmore : j + 1 < nd.vend
    · have hcn : curNext s ⟨some k, j⟩ = some (⟨some k, j + 1⟩, true) := by
        simp only [curNext, getNode, nodeLen, checkedSub, Option.bind_eq_bind,
          Option.some_bind, hnd, hvs, Nat.sub_zero, Nat.zero_le, if_true,
          ite_true, hmore]
      have hj2 : j + 1 < (if k < m then N else r) := by
        rw [← hvend]; exact hmore
      have hfuel2 : xs.length - (k * N + (j + 1)) < fuel := by omega
      have ihr := ih k (j + 1) hk hj2 hfuel2
      rw [show k * N + (j + 1) = k * N + j + 1 from by omega] at ihr
      simp only [iterFrom, hcv, hcn, Option.bind_eq_bind, Option.some_bind,
        ite_true, if_true, ihr, hdrop]
    · have hend : j + 1 = nd.vend := by omega
      by_cases hklt : k < m
      · have hkne : ¬ (k = m) := by omega
        have hnx : nd.next = some (k + 1) := by rw [hnext, if_neg hkne]
        have hjN1 : j + 1 = N := by
          have := hvend; rw [if_pos hklt] at this; omega
        have hcn : curNext s ⟨some k, j⟩ = some (⟨some (k + 1), 0⟩, true) := by
          simp only [curNext, getNode, nodeLen, checkedSub, Option.bind_eq_bind,
            Option.some_bind, hnd, hvs, Nat.sub_zero, Nat.zero_le, if_true,
            ite_true, hmore, if_false, ite_false, hnx]
        have e2 : (k + 1) * N + 0 = k * N + j + 1 := by
          rw [Nat.succ_mul]; omega
        have hj2 : 0 < (if k + 1 < m then N else r) := by
          by_cases h2 : k + 1 < m
          · simp only [if_pos h2]; omega
          · simp only [if_neg h2]; exact hsh.r_pos
        have hfuel2 : xs.length - ((k + 1) * N + 0) < fuel := by
          rw [e2]; omega
        have ihr := ih (k + 1) 0 hklt hj2 hfuel2
        rw [e2] at ihr
        simp only [iterFrom, hcv, hcn, Option.bind_eq_bind, Option.some_bind,
          ite_true, if_true, ihr, hdrop]
      · have hkm : k = m := by omega
        have hnx : nd.next = none := by rw [hnext, if_pos hkm]
        have hcn : curNext s ⟨some k, j⟩ = some (⟨some k, j⟩, false) := by
          simp only [curNext, getNode, nodeLen, checkedSub, Option.bind_eq_bind,
            Option.some_bind, hnd, hvs, Nat.sub_zero, Nat.zero_le, if_true,
            ite_true, hmore, if_false, ite_false, hnx]
        have hlast : xs.drop (k * N + j + 1) = [] := by
          apply List.drop_eq_nil_of_le
          subst hkm
          have hjr : j < r := by simpa [Nat.lt_irrefl] using hj
          rw [hsh.len_eq]
          have hvr := hvend
          rw [if_neg (Nat.lt_irrefl k)] at hvr
          omega
        simp only [iterFrom, hcv, hcn, Option.bind_eq_bind, Option.some_bind,
          ite_false, if_false, hdrop, hlast, Bool.false_eq_true]

theorem iterRevFrom_shape {N m r : Nat} {xs : List α} {s : LL α}
    (hsh : FIShape N m r xs s) :
    ∀ fuel k j, k ≤ m → j < (if k < m then N else r) →
      k * N + j < fuel →
      iterRevFrom N s ⟨some k, j⟩ fuel =
        some ((xs.take (k * N + j + 1)).reverse) := by
  intro fuel
  induction fuel with
  | zero => intro k j _ _ hfuel; omega
  | succ fuel ih =>
    intro k j hk hj hfuel
    obtain ⟨nd, hnd, hprev, hnext, hvs, hvend, hvals⟩ := hsh.nodes_shape k hk
    have hjlt : j < nd.vend := by rw [hvend]; exact hj
    have hjN : j < N := by
      by_cases h : k < m
      · simpa [h] using hj
      · exact lt_of_lt_of_le (by simpa [h] using hj) hsh.r_le
    have hidx : k * N + j < xs.length := by
      rw [hsh.len_eq]
      by_cases h : k < m
      · have h1 : k * N + N ≤ m * N := by
          have h2 : k + 1 ≤ m := h
          calc k * N + N = (k + 1) * N := by ring
          _ ≤ m * N := Nat.mul_le_mul_right N h2
        have := hsh.r_pos
        omega
      · have hkm : k = m := by omega
        subst hkm
        have hjr : j < r := by simpa [h] using hj
        omega
    have hvj := hvals j hjlt
    obtain ⟨slot, hslot⟩ : ∃ slot, nd.values j = some slot := by
      cases hval : nd.values j
      · rw [hval, List.get?_eq_get hidx] at hvj
        simp at hvj
      · exact ⟨_, rfl⟩
    have hv1 : slot.1 = xs.get ⟨k * N + j, hidx⟩ := by
      rw [hslot, List.get?_eq_get hidx] at hvj
      simpa using hvj
    have hv0 : ¬ (nd.vend = 0) := by omega
    have hcv : curValue N s ⟨some k, j⟩ = some (some slot.1) := by
      simp only [curValue, getNode, nodeLen, checkedSub, Option.bind_eq_bind,
        Option.some_bind, hnd, hvs, Nat.sub_zero, Nat.zero_le, Nat.zero_add,
        hslot, hv0, hjN, if_true, if_false, ite_true, ite_false,
        eq_self_iff_true, not_false_eq_true]
    have htake : (xs.take (k * N + j + 1)).reverse =
        slot.1 :: (xs.take (k * N + j)).reverse := by
      rw [List.take_succ, List.getElem?_eq_getElem hidx]
      simp [hv1, List.get_eq_getElem]
    by_cases hj0 : j = 0
    · subst hj0
      by_cases hk0 : k = 0
      · subst hk0
        have hpv : nd.previous = none := by rw [hprev, if_pos rfl]
        have hcp : curPrevious s ⟨some 0, 0⟩ = some (⟨some 0, 0⟩, false) := by
          simp only [curPrevious, getNode, Option.bind_eq_bind,
            Option.some_bind, hnd, hpv, ne_eq, eq_self_iff_true, not_true,
            if_false, ite_false, not_false_eq_true, ite_true, if_true]
        have htk : xs.take (0 * N + 0) = [] := by simp
        simp only [iterRevFrom, hcv, hcp, Option.bind_eq_bind,
          Option.some_bind, ite_false, if_false, htake, htk, List.reverse_nil,
          Bool.false_eq_true]
      · obtain ⟨k2, rfl⟩ : ∃ k2, k = k2 + 1 := ⟨k - 1, by omega⟩
        have hpv : nd.previous = some k2 := by
          rw [hprev, if_neg hk0]
          simp
        have hk2m : k2 < m := by omega
        obtain ⟨pnd, hpnd, hpp, hpn, hps, hpe, hpvls⟩ :=
          hsh.nodes_shape k2 (by omega)
        have hpe2 : pnd.vend = N := by rw [hpe, if_pos hk2m]
        have hN1 : 1 ≤ N := by omega
        have hcp : curPrevious s ⟨some (k2 + 1), 0⟩ =
            some (⟨some k2, N - 1⟩, true) := by
          simp only [curPrevious, getNode, nodeLen, checkedSub,
            Option.bind_eq_bind, Option.some_bind, hnd, hpv, hpnd, hps, hpe2,
            Nat.sub_zero, Nat.zero_le, hN1, ne_eq, eq_self_iff_true, not_true,
            if_false, ite_false, not_false_eq_true, ite_true, if_true]
        have e2 : k2 * N + (N - 1) + 1 = (k2 + 1) * N + 0 := by
          rw [Nat.succ_mul]; omega
        have hj2 : N - 1 < (if k2 < m then N else r) := by
          rw [if_pos hk2m]; omega
        have hfuel2 : k2 * N + (N - 1) < fuel := by
          have e3 : (k2 + 1) * N = k2 * N + N := Nat.succ_mul k2 N
          omega
        have ihr := ih k2 (N - 1) (by omega) hj2 hfuel2
        rw [e2] at ihr
        simp only [iterRevFrom, hcv, hcp, Option.bind_eq_bind,
          Option.some_bind, ite_true, if_true, ihr, htake]
    · have hcp : curPrevious s ⟨some k, j⟩ = some (⟨some k, j - 1⟩, true) := by
        simp only [curPrevious, ne_eq, hj0, not_false_eq_true, ite_true,
          if_true, Option.bind_eq_bind, Option.some_bind]
      have e2 : k * N + (j - 1) + 1 = k * N + j := by omega
      have hj2 : j - 1 < (if k < m then N else r) := by
        exact lt_of_le_of_lt (by omega) hj
      have hfuel2 : k * N + (j - 1) < fuel := by omega
      have ihr := ih k (j - 1) hk hj2 hfuel2
      rw [e2] at ihr
      simp only [iterRevFrom, hcv, hcp, Option.bind_eq_bind, Option.some_bind,
        ite_true, if_true, ihr, htake]

theorem iterMut_of_shape {N m r : Nat} {xs : List α} {s : LL α}
    (hsh : FIShape N m r xs s) : iterMut N s = some xs := by
  have hstart : cursorMut s = ⟨some 0, 0⟩ := by
    rw [cursorMut, hsh.head_eq]
  have hj : 0 < (if 0 < m then N else r) := by
    by_cases h : 0 < m
    · rw [if_pos h]
      exact lt_of_lt_of_le hsh.r_pos hsh.r_le
    · rw [if_neg h]
      exact hsh.r_pos
  have hfuel : xs.length - (0 * N + 0) < s.length + 1 := by
    rw [hsh.length_eq]; omega
  have h := iterFrom_shape hsh (s.length + 1) 0 0 (Nat.zero_le m) hj hfuel
  rw [iterMut, hstart, h]
  simp

theorem iterMutReverse_of_shape {N m r : Nat} {xs : List α} {s : LL α}
    (hsh : FIShape N m r xs s) : iterMutReverse N s = some xs.reverse := by
  obtain ⟨nd, hnd, _, _, hvs, hvend, _⟩ := hsh.nodes_shape m (le_refl m)
  have hver : nd.vend = r := by simpa using hvend
  have hlen0 : ¬ (s.length = 0) := by
    rw [hsh.length_eq, hsh.len_eq]
    have := hsh.r_pos
    omega
  have hse : seekToEnd s (cursorMut s) = some ⟨some m, r - 1⟩ := by
    simp only [seekToEnd, seekToStart, cursorMut, getNode, nodeLen, checkedSub,
      Option.bind_eq_bind, Option.some_bind, hsh.tail_eq, hnd, hvs, hver,
      hlen0, hsh.r_pos, Nat.sub_zero, Nat.zero_le, if_true, ite_true, if_false,
      ite_false]
  have hj : r - 1 < (if m < m then N else r) := by
    rw [if_neg (Nat.lt_irrefl m)]
    have := hsh.r_pos
    omega
  have hfuel : m * N + (r - 1) < s.length + 1 := by
    rw [hsh.length_eq, hsh.len_eq]
    omega
  have h := iterRevFrom_shape hsh (s.length + 1) m (r - 1) (le_refl m) hj hfuel
  have e : m * N + (r - 1) + 1 = xs.length := by
    rw [hsh.len_eq]
    have := hsh.r_pos
    omega
  rw [e, List.take_length] at h
  rw [iterMutReverse, hse]
  simp only [Option.bind_eq_bind, Option.some_bind, h]

end Pdb

/-! ## Claim C9: the from_iterator / iter_mut round trip -/

namespace Pdb

/-- C9: the claimed round trip fails at node capacity 0: `from_iterator` on a
non-empty sequence panics (`Node::append` writes `values[end]` into a
zero-capacity array) instead of building a traversable list. -/
theorem C9_zero_capacity_counterexample :
    fromIterator 0 [(0 : Nat)] = none := rfl

/-- C9 (amended to positive node capacities): for every node capacity
`N ≥ 1` and every finite input sequence, `from_iterator` builds a list
without faulting, forward `iter_mut` yields exactly the input sequence in
order, and `iter_mut_reverse` yields exactly its reverse. -/
theorem C9_from_iterator_round_trip {α : Type} (N : Nat) (xs : List α)
    (hN : 1 ≤ N) :
    ∃ s c, fromIterator N xs = some (s, c) ∧
      iterMut N s = some xs ∧ iterMutReverse N s = some xs.reverse := by
  rcases fromIterator_shape hN xs with hnil | ⟨m, r, s, heq, hsh⟩
  · subst hnil
    exact ⟨newList α, cursorMut (newList α), rfl, rfl, rfl⟩
  · exact ⟨s, ⟨some m, r - 1⟩, heq, iterMut_of_shape hsh,
      iterMutReverse_of_shape hsh⟩

/-- Witness for C9: the round trip at node capacity 4 on the nine-element
sequence 1..9. -/
theorem C9_from_iterator_round_trip_witness :
    (1 ≤ 4) ∧ ∃ s c, fromIterator 4 [1, 2, 3, 4, 5, 6, 7, 8, 9] = some (s, c) ∧
      iterMut 4 s = some [1, 2, 3, 4, 5, 6, 7, 8, 9] ∧
      iterMutReverse 4 s = some [1, 2, 3, 4, 5, 6, 7, 8, 9].reverse :=
  ⟨by decide,
    C9_from_iterator_round_trip 4 [1, 2, 3, 4, 5, 6, 7, 8, 9] (by decide)⟩

end Pdb

namespace Pdb

/-- Modelled from the spec: writing through the `&mut Range` returned by
`CursorMut::value` (`Node::value_mut` is called by cursor.rs but missing from
the sources): replaces the value of the slot at the start-relative cursor
position, keeping the slot's reference identity.  Faults on an empty node
(the source `unwrap`s the `None`), an out-of-bounds slot, or an
uninitialized read. -/
def curSetValue {α : Type} (N : Nat) (s : LL α) (c : Cur) (v : α) :
    Option (LL α) := do
  let nid ← c.node
  let nd ← getNode s c.node
  let len ← nodeLen nd
  if len = 0 then none
  else if nd.vstart + c.position < N then
    match nd.values (nd.vstart + c.position) with
    | some slot =>
      some (updNode s nid
        { nd with values := fun j =>
            if j = nd.vstart + c.position then some (v, slot.2)
            else nd.values j })
    | none => none
  else none

/-- The FreeList over the embedded `LinkedList<Range, 8>` itself
(free_list.rs line 28): the list state plus the cached `last_used`
reference (a location id, `Option<NodeRef<Range, 8>>` in the source). -/
structure FreeListL where
  list : LL Range
  last_used : Option Nat

/-- `FreeList::new` (free_list.rs lines 46-59): insert the single range
covering the whole capacity through a cursor and cache its reference. -/
def FreeListL.new (cap : Nat) : Option FreeListL := do
  let s := newList Range
  let (s1, c1, _) ← insertAfter 8 s (cursorMut s) ⟨0, cap⟩
  let ref? ← curReference 8 s1 c1
  some ⟨s1, ref?⟩

/-- The scan loop of `FreeList::allocate` (free_list.rs lines 96-133) over
the embedded list: track the running maximum, carve the first strictly
larger range (caching its reference), remove an exact fit (clearing the
cache only when it names the removed reference), else advance; `NotFound`
with the maximum when the cursor cannot advance, `NotFound 0` on an empty
list.  The fuel bounds the loop; `length + 1` rounds suffice whenever the
traversal terminates. -/
def allocLoop (lu : Option Nat) (s : LL Range) (c : Cur) (size maxSize : Nat) :
    Nat → Option (LL Range × Option Nat × AllocationResult)
  | 0 => none
  | fuel+1 => do
    let r? ← curValue 8 s c
    match r? with
    | none => some (s, lu, AllocationResult.NotFound 0)
    | some r =>
      let maxSize := if maxSize < r.size then r.size else maxSize
      if size < r.size then do
        let ref? ← curReference 8 s c
        let s1 ← curSetValue 8 s c (r.allocate size).2
        some (s1, ref?, AllocationResult.Allocated (r.allocate size).1)
      else if r.size = size then do
        let ref? ← curReference 8 s c
        let lu1 := match lu, ref? with
          | some a, some b => if a = b then none else lu
          | _, _ => lu
        let (s1, _, _) ← curRemove 8 s c
        some (s1, lu1, AllocationResult.Allocated r.offset)
      else do
        let (c1, moved) ← curNext s c
        if moved then allocLoop lu s c1 size maxSize fuel
        else some (s, lu, AllocationResult.NotFound maxSize)

/-- `FreeList::allocate` (free_list.rs lines 69-134) over the embedded list:
pad the size; if a reference is cached, re-enter the list through
`Ref::cursor_mut` (node.rs lines 506-511, the source's absolute-position
re-entry) and read the slot through `CursorMut::value` (`unwrap` faults on
`None`): carve in place on strict excess, remove and clear the cache on an
exact fit, otherwise fall through to the head-to-tail scan. -/
def FreeListL.allocate (fl : FreeListL) (size0 : Nat) :
    Option (FreeListL × AllocationResult) := do
  let size := FreeList.pad_size size0
  match fl.last_used with
  | some ref => do
    let c ← refCursorMut fl.list ref
    let r? ← curValue 8 fl.list c
    let r ← r?
    if size < r.size then do
      let s1 ← curSetValue 8 fl.list c (r.allocate size).2
      some (⟨s1, fl.last_used⟩, AllocationResult.Allocated (r.allocate size).1)
    else if r.size = size then do
      let (s1, _, _) ← curRemove 8 fl.list c
      some (⟨s1, none⟩, AllocationResult.Allocated r.offset)
    else do
      let (s1, lu1, res) ← allocLoop (some ref) fl.list (cursorMut fl.list)
        size 0 (fl.list.length + 1)
      some (⟨s1, lu1⟩, res)
  | none => do
    let (s1, lu1, res) ← allocLoop none fl.list (cursorMut fl.list)
      size 0 (fl.list.length + 1)
    some (⟨s1, lu1⟩, res)

/-- The scan loop of `FreeList::free` (free_list.rs lines 146-169) over the
embedded list: insert before the first range with a strictly larger offset,
skip ranges wholly below the freed start, append at the tail when the cursor
cannot advance, error when the freed start lies inside the current range,
and on an empty list insert the lone range and cache its reference. -/
def freeLoop (lu : Option Nat) (s : LL Range) (c : Cur) (off size : Nat) :
    Nat → Option (LL Range × Option Nat × FreeResult)
  | 0 => none
  | fuel+1 => do
    let r? ← curValue 8 s c
    match r? with
    | some r =>
      if off < r.offset then do
        let (s1, _, _) ← insertBefore 8 s c ⟨off, size⟩
        some (s1, lu, FreeResult.ok)
      else if r.offset + r.size ≤ off then do
        let (c1, moved) ← curNext s c
        if moved then freeLoop lu s c1 off size fuel
        else do
          let (s1, _, _) ← insertAfter 8 s c ⟨off, size⟩
          some (s1, lu, FreeResult.ok)
      else some (s, lu, FreeResult.overlapError)
    | none => do
      let (s1, c1, _) ← insertBefore 8 s c ⟨off, size⟩
      let ref? ← curReference 8 s1 c1
      some (s1, ref?, FreeResult.ok)

/-- `FreeList::free` (free_list.rs lines 137-170) over the embedded list. -/
def FreeListL.free (fl : FreeListL) (off size0 : Nat) :
    Option (FreeListL × FreeResult) := do
  let size := FreeList.pad_size size0
  let (s1, lu1, res) ← freeLoop fl.last_used fl.list (cursorMut fl.list)
    off size (fl.list.length + 1)
  some (⟨s1, lu1⟩, res)

/-! ## Claims C2, C3, C6: the FreeList over the embedded list -/

/-- C2 failing input: from `FreeList::new(4096)`, the calls allocate(3000),
free(8000, 2000), allocate(1200), allocate(1080) leave `last_used` caching
the reference of the surviving range `[9208, 10008)` inside a node whose
`start` was bumped to 1 by the exact-fit removal of the node's first range.
The final call records each intermediate result and the resulting state. -/
def c2Scenario : Option (FreeListL ×
    (AllocationResult × FreeResult × AllocationResult × AllocationResult)) := do
  let fl0 ← FreeListL.new 4096
  let (fl1, r1) ← fl0.allocate 3000
  let (fl2, r2) ← fl1.free 8000 2000
  let (fl3, r3) ← fl2.allocate 1200
  let (fl4, r4) ← fl3.allocate 1080
  some (fl4, r1, r2, r3, r4)

/-- C3 failing input: from `FreeList::new(4096)`, allocate(100) then
free(0, 100): the freed padded range `[0, 104)` should be inserted before
the sole existing range `[104, 4096)`. -/
def c3Scenario : Option (FreeListL × AllocationResult × FreeResult) := do
  let fl0 ← FreeListL.new 4096
  let (fl1, r1) ← fl0.allocate 100
  let (fl2, r2) ← fl1.free 0 100
  some (fl2, r1, r2)

/-- C6 failing input: from `FreeList::new(4096)`, the calls allocate(100),
allocate(4000), free(0, 100), allocate(96), allocate(3880), allocate(100),
where the one free targets exactly the offset/size pair returned by the
first allocate. -/
def c6Scenario : Option (AllocationResult × AllocationResult × FreeResult ×
    AllocationResult × AllocationResult × AllocationResult) := do
  let fl0 ← FreeListL.new 4096
  let (fl1, r1) ← fl0.allocate 100
  let (fl2, r2) ← fl1.allocate 4000
  let (fl3, r3) ← fl2.free 0 100
  let (fl4, r4) ← fl3.allocate 96
  let (fl5, r5) ← fl4.allocate 3880
  let (_, r6) ← fl5.allocate 100
  some (r1, r2, r3, r4, r5, r6)

end Pdb

/-- C2: the claimed hot path is not what the program does.  After the
c2Scenario calls (all of which succeed with the listed results), `last_used`
caches a reference whose `Location` correctly names the surviving free range
`[9208, 10008)` (size 800), the padded request 104 fits inside it, and the
claim says allocate first checks that cached range and carves from it — but
the node's `start` is 1, and `Ref::cursor_mut` (node.rs lines 506-511)
passes the Location's absolute in-node position 1 as a start-relative cursor
position, so the hot path's `value()` reads the uninitialized slot
`start + 1 = 2` and the program faults instead of returning offset 9208. -/
theorem C2_hot_path_reads_past_cached_range :
    Pdb.c2Scenario.map Prod.snd =
      some (Pdb.AllocationResult.Allocated 0, Pdb.FreeResult.ok,
        Pdb.AllocationResult.Allocated 8000,
        Pdb.AllocationResult.Allocated 3008) ∧
    (do
      let (fl, _) ← Pdb.c2Scenario
      let ref ← fl.last_used
      let lc ← fl.list.locs ref
      let nd ← fl.list.nodes lc.node
      let slot ← nd.values lc.position
      some slot.1) = some ⟨9208, 800⟩ ∧
    Pdb.FreeList.pad_size 100 < 800 ∧
    (do
      let (fl, _) ← Pdb.c2Scenario
      let nd ← fl.list.nodes 0
      some (nd.vstart, nd.vend)) = some (1, 2) ∧
    (do
      let (fl, _) ← Pdb.c2Scenario
      fl.allocate 100) = none := by
  refine ⟨rfl, rfl, by decide, rfl, rfl⟩

/-- C3: `free` does not insert the range the claim says it inserts.  After
allocate(100), freeing the previously returned region `(0, 100)` returns
`Ok`, but the padded range `[0, 104)` — which the claim says is inserted
before the first range with a larger offset — is nowhere in the list:
`insert_non_full` (node.rs lines 269-331) computes `new_val` and never
stores it in its shift branches, so the traversal instead sees the
surviving range `[104, 4096)` twice (slot 0 holds its stale duplicate) and
the cached length rises to 2. -/
theorem C3_free_drops_inserted_range :
    (Pdb.c3Scenario.map fun p => (p.2.1, p.2.2)) =
      some (Pdb.AllocationResult.Allocated 0, Pdb.FreeResult.ok) ∧
    Pdb.FreeList.pad_size 100 = 104 ∧
    (do
      let (fl, _, _) ← Pdb.c3Scenario
      Pdb.iterMut 8 fl.list) =
        some [⟨104, 3992⟩, ⟨104, 3992⟩] ∧
    (do
      let (fl, _, _) ← Pdb.c3Scenario
      some fl.list.length) = some 2 := by
  refine ⟨rfl, by decide, rfl, rfl⟩

/-- C6: live allocations are not pairwise disjoint.  In the c6Scenario call
sequence the only `free` targets exactly the pair returned by the first
`allocate` and returns `Ok`, yet the fourth and sixth calls both return
offset 104 with no intervening free of it: the dropped insertion of
free(0, 100) leaves a stale duplicate of the range `[104, 4096)` in slot 0,
the exact-fit removal deletes only the real copy, and the final scan carves
the duplicate, handing out `[104, 208)` a second time while `(104, 96)` is
still live — the two live allocations overlap. -/
theorem C6_overlapping_live_allocations :
    Pdb.c6Scenario =
      some (Pdb.AllocationResult.Allocated 0,
        Pdb.AllocationResult.NotFound 3992, Pdb.FreeResult.ok,
        Pdb.AllocationResult.Allocated 104,
        Pdb.AllocationResult.Allocated 208,
        Pdb.AllocationResult.Allocated 104) ∧
    Pdb.Range.overlaps ⟨104, 96⟩ ⟨104, 100⟩ = true := by
  refine ⟨rfl, by decide⟩

